import Mathlib

/-!
# Verification of the MyBustub storage and transaction core

A shallow embedding, in Lean 4, of the parts of the MyBustub repository that the
checked claims are about:

* the B+tree leaf and internal pages (`src/storage/page/b_plus_tree_leaf_page.cpp`,
  `src/storage/page/b_plus_tree_internal_page.cpp`),
* the B+tree index itself (`src/storage/index/b_plus_tree.cpp`) and its iterator
  (`src/storage/index/index_iterator.cpp`),
* the LRU-K replacer (`src/buffer/lru_k_replacer.cpp`),
* the buffer pool manager (`src/buffer/buffer_pool_manager.cpp`),
* the lock manager (`src/concurrency/lock_manager.cpp`), and
* the transaction manager (`src/concurrency/transaction_manager.cpp`).

Keys of the generic B+tree (`GenericKey` compared through a `GenericComparator`,
which returns a negative/zero/positive int) are modelled as `Int` with the usual
order; RID values are modelled as `Int` as well.  Machine integers never reach
the edges of their ranges in the modelled scenarios, with one deliberate
exception: `int` index arithmetic such as `GetSize() - 1` is modelled in `Int`
(not `Nat`) wherever the source can produce `-1` there.
-/

namespace MyBustub

/-! ## B+tree leaf page (`b_plus_tree_leaf_page.cpp`) -/

abbrev Key := Int

abbrev Val := Int

abbrev KV := Key × Val

/-- In-page insertion of `BPlusTreeLeafPage::Insert`
(`b_plus_tree_leaf_page.cpp:84-109`) viewed from the tail: the source scans the
slot array right-to-left (`for (; k >= 0; k--)`), stopping at the first slot
whose key is `<=` the new key; an equal key aborts with `false`
(`b_plus_tree_leaf_page.cpp:98-99`), a smaller key means the scanned suffix is
shifted one slot to the right and the new pair is written just after the stop
position (`b_plus_tree_leaf_page.cpp:103-106`).  This function consumes the
entry list in reverse order, so the scanned suffix is its prefix; `none` is the
`return false` duplicate outcome.  The fast path for a key greater than the last
slot (`b_plus_tree_leaf_page.cpp:88-92`) coincides with the first branch here. -/
def leafInsertRev (kv : KV) : List KV → Option (List KV)
  | [] => some [kv]
  | e :: rest =>
    if e.1 < kv.1 then some (kv :: e :: rest)
    else if kv.1 = e.1 then none
    else (leafInsertRev kv rest).map (fun l => e :: l)

/-- The leaf-page `Insert`, as the list-of-entries transformer obtained by
running `leafInsertRev` on the reversed slot array.  On an empty page the
source first evaluates `comp(key, array_[-1].first)` (see the claim about that
read); both outcomes of that comparison lead to `array_[0] = {key, value}` and
size 1, which is the `[kv]` produced here. -/
def leafInsert (es : List KV) (kv : KV) : Option (List KV) :=
  (leafInsertRev kv es.reverse).map List.reverse

/-- Checked array read at a C++ `int` index: `none` models an access outside
the live slots `array_[0] .. array_[size-1]` of the page. -/
def getI (es : List KV) (i : Int) : Option KV :=
  if i < 0 then none else es[i.toNat]?

/-- Insertion at a position, modelling the shift loop
`for (int i = GetSize() - 1; i > k; i--) array_[i+1] = array_[i];` followed by
`array_[k+1] = {key, value}` (and the analogous `std::vector::insert` calls):
all entries after the stop position move one slot right and the new element
lands there. -/
def insAt {α : Type} (es : List α) (i : Nat) (kv : α) : List α :=
  es.take i ++ kv :: es.drop i

/-- Instrumented scan loop of `BPlusTreeLeafPage::Insert`
(`b_plus_tree_leaf_page.cpp:93-108`), with every slot read going through
`getI`.  The argument `m` is `k + 1` for the current loop index `k`, so `0`
is the loop exit with `k = -1` (then `k > -1` fails and the pair is written to
`array_[0]`).  A `none` result is an out-of-range slot access. -/
def leafInsertChkLoop (es : List KV) (kv : KV) : Nat → Option (Bool × List KV)
  | 0 => some (true, insAt es 0 kv)
  | m + 1 =>
    match getI es m with
    | none => none
    | some e =>
      if e.1 ≤ kv.1 then
        if kv.1 = e.1 then some (false, es)
        else some (true, insAt es (m + 1) kv)
      else leafInsertChkLoop es kv m

/-- Instrumented `BPlusTreeLeafPage::Insert` (`b_plus_tree_leaf_page.cpp:84-109`)
in which every slot read is bounds-checked: `none` means the function read a
slot outside `[0, size-1]`.  The source begins with `int k = GetSize() - 1;`
and immediately evaluates `comp(key, array_[k].first)`
(`b_plus_tree_leaf_page.cpp:87-88`) before any bounds test, so the very first
read is at `int` index `size - 1`. -/
def leafInsertChk (es : List KV) (kv : KV) : Option (Bool × List KV) :=
  match getI es ((es.length : Int) - 1) with
  | none => none
  | some last =>
    if last.1 < kv.1 then some (true, es ++ [kv])
    else leafInsertChkLoop es kv es.length

/-- Position returned by `std::upper_bound` over the entry vector with the
comparator `comp(key, elem.first) < 0` (`b_plus_tree.cpp:125-127`): the first
index whose key is greater than the probe (the vector is sorted whenever the
source calls this). -/
def ubPos (es : List KV) (k : Key) : Nat :=
  (es.takeWhile (fun e => ¬ (k < e.1))).length

/-- The full-leaf path of `BPlusTree::Insert` (`b_plus_tree.cpp:122-151`):
copy the slots into a vector, find the `upper_bound` position of the new key,
reject a duplicate (`index == 0 || comparator_(key, (it-1)->first) != 0` is the
non-duplicate test, `b_plus_tree.cpp:129-133`), insert, and split the vector
with `int old_size = (old_leaf->GetMaxSize() + 1) / 2;` entries staying in the
original leaf (`b_plus_tree.cpp:142-144`); C++ `int` division truncates.
Returns the pair (left leaf slots, new right sibling slots), or `none` for the
duplicate `return false`. -/
def leafSplitInsert (leafMax : Nat) (es : List KV) (kv : KV) :
    Option (List KV × List KV) :=
  let idx := ubPos es kv.1
  if idx = 0 ∨ (es.getD (idx - 1) (0, 0)).1 ≠ kv.1 then
    let arr := insAt es idx kv
    let oldSize := (leafMax + 1) / 2
    some (arr.take oldSize, arr.drop oldSize)
  else none

theorem insAt_length {α : Type} (es : List α) (i : Nat) (kv : α) (h : i ≤ es.length) :
    (insAt es i kv).length = es.length + 1 := by
  simp [insAt, List.length_take, List.length_drop, Nat.min_eq_left h]
  omega

theorem length_takeWhile_le {α : Type} (p : α → Bool) (l : List α) :
    (l.takeWhile p).length ≤ l.length := by
  induction l with
  | nil => simp
  | cons a l ih =>
    rw [List.takeWhile_cons]
    split
    · simpa using ih
    · simp

theorem ubPos_le_length (es : List KV) (k : Key) : ubPos es k ≤ es.length :=
  length_takeWhile_le _ es

theorem ubPos_getD_mem (es : List KV) (k : Key) (h : ubPos es k ≠ 0) :
    (es.getD (ubPos es k - 1) (0, 0)) ∈ es := by
  have hle := ubPos_le_length es k
  have hlt : ubPos es k - 1 < es.length := by omega
  have : es.getD (ubPos es k - 1) (0, 0) = es.get ⟨ubPos es k - 1, hlt⟩ := by
    simp [List.getD_eq_getElem?_getD, List.getElem?_eq_getElem hlt]
  rw [this]
  exact es.get_mem _ _

/-- Generic form of the corrected split arithmetic: a full leaf (`size =
max_size`) receiving a fresh key keeps `(max_size + 1) / 2` entries (floor
division) and hands the remaining `max_size + 1 - (max_size + 1) / 2` entries
to the new right sibling. -/
theorem leafSplitInsert_sizes (lm : Nat) (es : List KV) (kv : KV)
    (hfull : es.length = lm) (hnotin : kv.1 ∉ es.map Prod.fst) :
    ∃ l r, leafSplitInsert lm es kv = some (l, r) ∧
      l.length = (lm + 1) / 2 ∧ r.length = (lm + 1) - (lm + 1) / 2 := by
  have hcase : ubPos es kv.1 = 0 ∨ (es.getD (ubPos es kv.1 - 1) (0, 0)).1 ≠ kv.1 := by
    by_cases h0 : ubPos es kv.1 = 0
    · exact Or.inl h0
    · refine Or.inr ?_
      intro heq
      exact hnotin (by
        have := ubPos_getD_mem es kv.1 h0
        exact heq ▸ List.mem_map_of_mem Prod.fst this)
  have harr : (insAt es (ubPos es kv.1) kv).length = lm + 1 := by
    rw [insAt_length es _ kv (ubPos_le_length es kv.1), hfull]
  refine ⟨(insAt es (ubPos es kv.1) kv).take ((lm + 1) / 2),
    (insAt es (ubPos es kv.1) kv).drop ((lm + 1) / 2), ?_, ?_, ?_⟩
  · simp only [leafSplitInsert]
    rw [if_pos hcase]
  · simp only [List.length_take, harr]
    omega
  · simp only [List.length_drop, harr]

/-- Claim C4, counterexample: with `max_size = 4`, a full leaf `[1,2,3,4]`
receiving key `5` keeps `(4+1)/2 = 2` entries on the left — not
`ceil((4+1)/2) = 3` as the claim states. -/
theorem C4_split_ceil_counterexample :
    ((leafSplitInsert 4 [(1, 10), (2, 20), (3, 30), (4, 40)] (5, 50)).map
        (fun p => p.1.length) = some ((4 + 1) / 2)) ∧
      ¬ ((leafSplitInsert 4 [(1, 10), (2, 20), (3, 30), (4, 40)] (5, 50)).map
        (fun p => p.1.length) = some ((4 + 1 + 1) / 2)) := by
  decide

/-- Claim C4, amended: when insert reaches a full leaf (`size = max_size`) with
a key not already present, the split keeps `floor((max_size + 1) / 2)` entries
in the original (left) leaf and moves the remaining
`max_size + 1 - floor((max_size + 1) / 2)` entries to the new right sibling,
for every value of `max_size`. -/
theorem C4_full_leaf_split_left_floor (lm : Nat) (es : List KV) (kv : KV)
    (hfull : es.length = lm) (hnotin : kv.1 ∉ es.map Prod.fst) :
    ∃ l r, leafSplitInsert lm es kv = some (l, r) ∧
      l.length = (lm + 1) / 2 ∧ r.length = (lm + 1) - (lm + 1) / 2 :=
  leafSplitInsert_sizes lm es kv hfull hnotin

/-- Witness for the amended claim C4 at a concrete full leaf. -/
theorem C4_full_leaf_split_left_floor_witness :
    ∃ l r, leafSplitInsert 4 [(1, 10), (2, 20), (3, 30), (4, 40)] (5, 50) = some (l, r) ∧
      l.length = (4 + 1) / 2 ∧ r.length = (4 + 1) - (4 + 1) / 2 :=
  C4_full_leaf_split_left_floor 4 [(1, 10), (2, 20), (3, 30), (4, 40)] (5, 50)
    (by decide) (by decide)

/-- Claim C10: the claim says `BPlusTreeLeafPage::Insert` touches only slots
`[0, size]`, so the out-of-range branch of a bounds-checked embedding is
unreachable, in particular on the empty leaf produced for a first insert into
a new root (`b_plus_tree.cpp:87-91`).  The code instead evaluates
`comp(key, array_[GetSize() - 1].first)` before any bounds test
(`b_plus_tree_leaf_page.cpp:87-88`), which on an empty leaf reads `int` slot
`-1`: the checked embedding reports the out-of-range read for every key. -/
theorem C10_insert_on_empty_leaf_reads_slot_minus_one (kv : KV) :
    leafInsertChk [] kv = none := by
  simp [leafInsertChk, getI]

/-! ## Lock manager deadlock detection (`lock_manager.cpp:494-642`)

The waits-for graph `waits_for_` is a map from txn id to its adjacency vector;
it is modelled as an association list.  `AddEdge` keeps adjacency vectors
duplicate-free (`lock_manager.cpp:494-501`), and `RunCycleDetection` sorts
every adjacency vector ascending before searching (`lock_manager.cpp:614-617`),
so the graphs fed to `HasCycle` have sorted, duplicate-free adjacency lists. -/

abbrev TxnId := Nat

abbrev WaitsFor := List (TxnId × List TxnId)

/-- Adjacency lookup `waits_for_[t]`; a `std::unordered_map` subscript
default-constructs an empty vector for an absent key. -/
def adjOf (g : WaitsFor) (t : TxnId) : List TxnId :=
  match g.find? (fun p => p.1 = t) with
  | some p => p.2
  | none => []

/-- Set insertion for the modelled `std::unordered_set<txn_id_t>`. -/
def insertSet (t : TxnId) (s : List TxnId) : List TxnId :=
  if t ∈ s then s else t :: s

/-- Victim choice of `FindCycle` (`lock_manager.cpp:547-551`): scan `path` for
the first occurrence of the re-encountered vertex, then take
`std::max_element` of the path from that position to the end. -/
def maxSuffix (path : List TxnId) (t : TxnId) : TxnId :=
  (path.dropWhile (fun x => x ≠ t)).foldl max 0

/-- Body of `LockManager::FindCycle` (`lock_manager.cpp:543-563`), with the
loop `for (auto next_txn : waits_for_[source_txn])` made explicit: `nbrs` is
the not-yet-iterated remainder of the adjacency list of the current source
vertex.  A visited neighbour that is on the current path ends the search with
the victim `maxSuffix path next` (`lock_manager.cpp:546-554`); any other
neighbour is added to `visited` and `path` and searched recursively
(`lock_manager.cpp:555-560`).  `path` and `visited` are the by-reference
vector/set arguments of the source; `visited` mutations persist into the
caller, `path` push/pop pairs cancel, so only the updated `visited` is
returned.  The C++ recursion has no explicit bound, so the embedding spends
one unit of fuel per neighbour step; the concrete runs below never exhaust
it. -/
def findCycleFrom (g : WaitsFor) : Nat → List TxnId → List TxnId → List TxnId →
    Option TxnId × List TxnId
  | 0, _, _, visited => (none, visited)
  | _ + 1, [], _, visited => (none, visited)
  | fuel + 1, next :: rest, path, visited =>
    if next ∈ visited ∧ next ∈ path then (some (maxSuffix path next), visited)
    else
      match findCycleFrom g fuel (adjOf g next) (path ++ [next]) (insertSet next visited) with
      | (some v, vis) => (some v, vis)
      | (none, vis) => findCycleFrom g fuel rest path vis

/-- Insertion sort used to model `std::sort` on the source vertices
(`lock_manager.cpp:529`) and the adjacency vectors (`lock_manager.cpp:616`). -/
def sortNat (l : List Nat) : List Nat :=
  l.foldr (fun x acc => insSorted x acc) []
where
  insSorted (x : Nat) : List Nat → List Nat
    | [] => [x]
    | y :: ys => if x ≤ y then x :: y :: ys else y :: insSorted x ys

/-- Loop of `HasCycle` over the sorted source list (`lock_manager.cpp:530-539`):
DFS from every not-yet-visited vertex; the `visited` set is shared across
starts. -/
def hasCycleFold (g : WaitsFor) (fuel : Nat) :
    List TxnId → List TxnId → Option TxnId × List TxnId
  | [], visited => (none, visited)
  | s :: rest, visited =>
    if s ∈ visited then hasCycleFold g fuel rest visited
    else
      match findCycleFrom g fuel (adjOf g s) [] (insertSet s visited) with
      | (some v, vis) => (some v, vis)
      | (none, vis) => hasCycleFold g fuel rest vis

/-- `LockManager::HasCycle` (`lock_manager.cpp:515-541`): collect the map keys,
sort ascending, and DFS from each in order; returns the victim txn id when a
cycle is found. -/
def hasCycle (g : WaitsFor) (fuel : Nat) : Option TxnId :=
  (hasCycleFold g fuel (sortNat (g.map Prod.fst)) []).1

/-- Edge pruning after a victim is aborted (`lock_manager.cpp:625-630`):
`waits_for_[victim].clear()` plus `RemoveEdge(source, victim)` for every
source.  `RemoveEdge` erases the single occurrence of the target
(adjacency vectors are duplicate-free by `AddEdge`). -/
def clearTxn (g : WaitsFor) (t : TxnId) : WaitsFor :=
  g.map (fun p => if p.1 = t then (p.1, []) else (p.1, p.2.filter (fun x => x ≠ t)))

/-- The victim-abort loop of one detection pass of `RunCycleDetection`
(`lock_manager.cpp:619-631`): `while (HasCycle(&aborted_txn))`, set the victim
state to `ABORTED` (recorded here as the output list, in order), prune its
edges, search again. -/
def runDetection (g : WaitsFor) : Nat → List TxnId
  | 0 => []
  | fuel + 1 =>
    match hasCycle g 100 with
    | none => []
    | some v => v :: runDetection (clearTxn g v) fuel

/-- Claim C2: on the waits-for graph `{1→2, 2→3, 3→1}` (already sorted), the
cycle-detection pass reports a cycle with victim txn 3 — the highest id on the
cycle — and the detection loop aborts exactly txn 3. -/
theorem C2_cycle_detection_aborts_txn3 :
    hasCycle [(1, [2]), (2, [3]), (3, [1])] 100 = some 3 ∧
      runDetection [(1, [2]), (2, [3]), (3, [1])] 10 = [3] := by
  decide

/-! ## LRU-K replacer (`lru_k_replacer.cpp`)

The heap (`LRUKReplacer::LRUKHeap`) and the replacer operations are embedded
from the source.  `LRUKNode` itself (constructor, `Access`, `IsEvictable`,
`operator<`) lives in `lru_k_replacer.h`, which is not part of the sources;
it is modelled from the spec: a node keeps the bounded history of the last K
access timestamps and an evictable flag, and the eviction order is — frames
with fewer than K accesses first, among them by smaller earliest recorded
access; then mature frames by smaller K-th most recent access (largest
backward K-distance), ties by smaller earliest recorded access.  `a < b`
orders `b` before `a` for eviction, so that the max-heap keeps the eviction
victim at the root. -/

/-- Modelled from the spec: per-frame replacer metadata, a bounded history of
the last K access timestamps (oldest first) plus the evictable flag. -/
structure LRUKNode where
  history : List Nat
  isEvictable : Bool
deriving DecidableEq

/-- Modelled from the spec: `LRUKNode(frame_id, k, timestamp)` records the
first access; a new node is not yet evictable. -/
def LRUKNode.mk0 (ts : Nat) : LRUKNode :=
  ⟨[ts], false⟩

/-- Modelled from the spec: `Access(timestamp)` appends to the history and
keeps only the last `k` entries. -/
def LRUKNode.access (nd : LRUKNode) (k ts : Nat) : LRUKNode :=
  let h := nd.history ++ [ts]
  ⟨if k < h.length then h.drop (h.length - k) else h, nd.isEvictable⟩

/-- Modelled from the spec: the eviction key, compared lexicographically;
smaller keys are evicted first.  A young frame (fewer than `k` recorded
accesses, infinite backward K-distance) precedes every mature one; the second
component is the oldest recorded timestamp, which for a mature frame is
exactly its K-th most recent access. -/
def LRUKNode.evictKey (nd : LRUKNode) (k : Nat) : Nat × Nat :=
  (if nd.history.length < k then 0 else 1, nd.history.headD 0)

/-- Modelled from the spec: `operator<` on nodes; `a < b` iff `b` is closer to
eviction, making the heap root the victim. -/
def nodeLt (k : Nat) (a b : LRUKNode) : Bool :=
  (b.evictKey k).1 < (a.evictKey k).1 ∨
    ((b.evictKey k).1 = (a.evictKey k).1 ∧ (b.evictKey k).2 < (a.evictKey k).2)

/-- State of `LRUKReplacer`: the `node_store_` map, the heap vector `frames_`
of `evictable_frames_`, `curr_size_`, the logical clock, and `k_`. -/
structure Replacer where
  nodeStore : List (Nat × LRUKNode)
  frames : List Nat
  currSize : Nat
  currentTimestamp : Nat
  k : Nat
deriving DecidableEq

/-- Lookup in `node_store_`; a `std::map` subscript read inside the heap code
default-constructs an absent node (never exercised in the runs below). -/
def storeGet (store : List (Nat × LRUKNode)) (f : Nat) : LRUKNode :=
  match store.find? (fun p => p.1 = f) with
  | some p => p.2
  | none => ⟨[], false⟩

def storeHas (store : List (Nat × LRUKNode)) (f : Nat) : Bool :=
  (store.find? (fun p => p.1 = f)).isSome

def storeSet (store : List (Nat × LRUKNode)) (f : Nat) (nd : LRUKNode) :
    List (Nat × LRUKNode) :=
  if storeHas store f then store.map (fun p => if p.1 = f then (f, nd) else p)
  else store ++ [(f, nd)]

def storeErase (store : List (Nat × LRUKNode)) (f : Nat) : List (Nat × LRUKNode) :=
  store.filter (fun p => p.1 ≠ f)

def frGet (fr : List Nat) (i : Nat) : Nat :=
  fr.getD i 0

/-- The `std::swap(frames_[i], frames_[j])` of the heap code. -/
def frSwap (fr : List Nat) (i j : Nat) : List Nat :=
  (fr.set i (frGet fr j)).set j (frGet fr i)

/-- `LRUKHeap::Heapify(start, end)` (`lru_k_replacer.cpp:69-83`): sift the
element at `start` down, at each step moving to the larger child, stopping as
soon as the larger child compares below the parent.  `end` is an `int` in the
source and is `-1` when the heap just became empty, hence `Int` here; the
loop runs at most the length of the vector, which bounds the fuel. -/
def heapifyGo (store : List (Nat × LRUKNode)) (k : Nat) :
    Nat → List Nat → Nat → Int → List Nat
  | 0, fr, _, _ => fr
  | fuel + 1, fr, fa, endI =>
    let son := 2 * fa + 1
    if (son : Int) ≤ endI then
      let son :=
        if ((son : Int) + 1 ≤ endI) ∧
            nodeLt k (storeGet store (frGet fr son)) (storeGet store (frGet fr (son + 1))) then
          son + 1
        else son
      if nodeLt k (storeGet store (frGet fr son)) (storeGet store (frGet fr fa)) then fr
      else heapifyGo store k fuel (frSwap fr fa son) son endI
    else fr

def heapify (store : List (Nat × LRUKNode)) (k : Nat) (fr : List Nat)
    (start : Nat) (endI : Int) : List Nat :=
  heapifyGo store k (fr.length + 1) fr start endI

/-- Sift-up loop of `LRUKHeap::Insert` (`lru_k_replacer.cpp:90-97`): while the
new element is not below its parent, swap upward. -/
def siftUp (store : List (Nat × LRUKNode)) (k : Nat) :
    Nat → List Nat → Nat → List Nat
  | 0, fr, _ => fr
  | fuel + 1, fr, son =>
    if son = 0 then fr
    else
      let fa := (son - 1) / 2
      if nodeLt k (storeGet store (frGet fr son)) (storeGet store (frGet fr fa)) then fr
      else siftUp store k fuel (frSwap fr fa son) fa

/-- `LRUKHeap::Insert` (`lru_k_replacer.cpp:85-98`): push the frame at the
back, bump `curr_size_`, sift up from position `curr_size_ - 1`. -/
def heapInsert (st : Replacer) (fid : Nat) : Replacer :=
  let fr := st.frames ++ [fid]
  let cs := st.currSize + 1
  { st with frames := siftUp st.nodeStore st.k (fr.length + 1) fr (cs - 1), currSize := cs }

/-- `LRUKHeap::Remove` (`lru_k_replacer.cpp:100-110`): find the frame by linear
scan, swap it with the last live slot, pop the back, shrink `curr_size_`, then
`Heapify(i, curr_size_ - 1)` (sift-down only). -/
def heapRemove (st : Replacer) (fid : Nat) : Replacer :=
  match (List.range st.currSize).find? (fun i => frGet st.frames i = fid) with
  | none => st
  | some i =>
    let fr := (frSwap st.frames i (st.currSize - 1)).dropLast
    let cs := st.currSize - 1
    { st with frames := heapify st.nodeStore st.k fr i ((cs : Int) - 1), currSize := cs }

/-- `LRUKHeap::Pop` (`lru_k_replacer.cpp:112-118`): the victim is the root;
swap it with the last live slot, pop the back, shrink `curr_size_`, sift the
new root down. -/
def heapPop (st : Replacer) : Nat × Replacer :=
  let top := frGet st.frames 0
  let fr := (frSwap st.frames 0 (st.currSize - 1)).dropLast
  let cs := st.currSize - 1
  (top, { st with frames := heapify st.nodeStore st.k fr 0 ((cs : Int) - 1), currSize := cs })

/-- `LRUKReplacer::RecordAccess` (`lru_k_replacer.cpp:32-44`): create the node
on first touch with the post-incremented clock; otherwise record the access
and, if the node is evictable, remove and re-insert it in the heap. -/
def recordAccess (st : Replacer) (fid : Nat) : Replacer :=
  if ¬ storeHas st.nodeStore fid then
    { st with nodeStore := storeSet st.nodeStore fid (LRUKNode.mk0 st.currentTimestamp),
              currentTimestamp := st.currentTimestamp + 1 }
  else
    let nd := (storeGet st.nodeStore fid).access st.k st.currentTimestamp
    let st := { st with nodeStore := storeSet st.nodeStore fid nd,
                        currentTimestamp := st.currentTimestamp + 1 }
    if nd.isEvictable then heapInsert (heapRemove st fid) fid else st

/-- `LRUKReplacer::SetEvictable` (`lru_k_replacer.cpp:46-55`); the `std::map`
subscript materialises a default node when the frame is unknown. -/
def setEvictable (st : Replacer) (fid : Nat) (b : Bool) : Replacer :=
  let st :=
    if storeHas st.nodeStore fid then st
    else { st with nodeStore := storeSet st.nodeStore fid ⟨[], false⟩ }
  let nd := storeGet st.nodeStore fid
  let st :=
    if b ∧ ¬ nd.isEvictable then heapInsert st fid
    else if ¬ b ∧ nd.isEvictable then heapRemove st fid
    else st
  { st with nodeStore := storeSet st.nodeStore fid ⟨nd.history, b⟩ }

/-- `LRUKReplacer::Evict` (`lru_k_replacer.cpp:22-30`): `none` when no frame is
evictable, otherwise pop the heap root and erase its node. -/
def evict (st : Replacer) : Option Nat × Replacer :=
  if st.currSize = 0 then (none, st)
  else
    let (fid, st) := heapPop st
    (some fid, { st with nodeStore := storeErase st.nodeStore fid })

/-- Fresh `LRUKReplacer(num_frames, k)`. -/
def replacerInit (k : Nat) : Replacer :=
  ⟨[], [], 0, 0, k⟩

/-- One recorded access followed by marking the frame evictable, as in the
scenario of claim C3. -/
def accessEvictable (st : Replacer) (fid : Nat) : Replacer :=
  setEvictable (recordAccess st fid) fid true

/-- Repeated `Evict` calls collecting the victims in order. -/
def evictAll (st : Replacer) : Nat → List Nat
  | 0 => []
  | n + 1 =>
    match evict st with
    | (none, _) => []
    | (some fid, st2) => fid :: evictAll st2 n

/-- The replacer state after the C3 access sequence with `k = 2`. -/
def c3State : Replacer :=
  [1, 2, 3, 4, 1, 2, 5, 6, 1, 2, 3, 4, 5, 6, 7].foldl accessEvictable (replacerInit 2)

set_option maxRecDepth 4000

/-- Claim C3, counterexample: after the access sequence
`1,2,3,4,1,2,5,6,1,2,3,4,5,6,7` with `k = 2` and every frame marked evictable
after its access, seven evictions do not return `7,6,5,4,3,2,1`. -/
theorem C3_claimed_order_counterexample :
    ¬ (evictAll c3State 7 = [7, 6, 5, 4, 3, 2, 1]) := by
  decide

/-- Claim C3, amended: the seven evictions return `7,3,4,1,2,5,6` — frame 7
first (fewer than `k` accesses), then the mature frames ordered by largest
backward K-distance, i.e. by their second-to-last access timestamps
`3:t2, 4:t3, 1:t4, 2:t5, 5:t6, 6:t7` — which is what the ordering rule quoted
in the claim itself prescribes. -/
theorem C3_eviction_order :
    evictAll c3State 7 = [7, 3, 4, 1, 2, 5, 6] := by
  decide

/-! ## Lock manager request path (`lock_manager.cpp:21-104, 179-258, 351-490`)

The pre-wait phase of `LockTable` / `LockRow` — everything up to the
`cv_.wait` — is a deterministic function of the transaction view and the
request queue, embedded below.  The transaction view carries what the queue
logic reads from the `Transaction` object: id, state, isolation level, and the
held-lock information consulted by `GetTableLockMode` /
`IsRowSharedLocked` / `IsRowExclusiveLocked`. -/

inductive LockMode where
  | IS | IX | S | SIX | X
deriving DecidableEq

inductive IsoLevel where
  | readUncommitted | readCommitted | repeatableRead
deriving DecidableEq

inductive TxnState where
  | growing | shrinking | committed | aborted
deriving DecidableEq

inductive AbortReason where
  | lockOnShrinking
  | lockSharedOnReadUncommitted
  | upgradeConflict
  | incompatibleUpgrade
  | tableLockNotPresent
  | attemptedIntentionLockOnRow
deriving DecidableEq

/-- Result of the validation steps that can throw, plus the
`BUSTUB_ENSURE(state != ABORTED && state != COMMITTED, ...)` assertion. -/
inductive CheckRes where
  | ok
  | abort (r : AbortReason)
  | assertFail
deriving DecidableEq

/-- `LockManager::CanTxnTakeLock` (`lock_manager.cpp:375-417`). -/
def canTxnTakeLock (state : TxnState) (iso : IsoLevel) (mode : LockMode) : CheckRes :=
  if state = .aborted ∨ state = .committed then .assertFail
  else
    match iso with
    | .readUncommitted =>
      if mode = .S ∨ mode = .IS ∨ mode = .SIX then .abort .lockSharedOnReadUncommitted
      else if state = .shrinking then .abort .lockOnShrinking
      else .ok
    | .readCommitted =>
      if state = .shrinking ∧ (mode ≠ .S ∧ mode ≠ .IS) then .abort .lockOnShrinking
      else .ok
    | .repeatableRead =>
      if state = .shrinking then .abort .lockOnShrinking
      else .ok

/-- `LockManager::CanLockUpgrade` (`lock_manager.cpp:454-470`). -/
def canLockUpgrade (cur req : LockMode) : Bool :=
  match cur with
  | .IS => req ≠ .IS
  | .S => req = .X ∨ req = .SIX
  | .IX => req = .X ∨ req = .SIX
  | .SIX => req = .X
  | .X => false

/-- One entry of a `LockRequestQueue`: requesting txn, mode, granted flag. -/
structure LockReq where
  txnId : TxnId
  mode : LockMode
  granted : Bool
deriving DecidableEq

/-- A `LockRequestQueue`: the FIFO request list and the `upgrading_` slot. -/
structure LockQueue where
  requests : List LockReq
  upgrading : Option TxnId
deriving DecidableEq

/-- What the queue logic reads from the transaction: id, state, isolation
level, the table lock mode held on the request's table
(`GetTableLockMode`, `lock_manager.cpp:318-335`), and the row lock flags for
the request's row (`IsRowSharedLocked` / `IsRowExclusiveLocked`). -/
structure TxnView where
  id : TxnId
  state : TxnState
  iso : IsoLevel
  heldTable : Option LockMode
  rowShared : Bool
  rowExclusive : Bool
deriving DecidableEq

/-- Outcome of the pre-wait phase of a lock request. -/
inductive LockStep where
  | returnsFalse
  | aborts (r : AbortReason)
  | assertFail
  | enqueued (q : LockQueue)
deriving DecidableEq

/-- Removal of the requesting transaction's old request
(`request_queue_.erase(it)`). -/
def eraseReqOf (rs : List LockReq) (t : TxnId) : List LockReq :=
  match rs with
  | [] => []
  | r :: rest => if r.txnId = t then rest else r :: eraseReqOf rest t

/-- Upgrade placement (`lock_manager.cpp:69-75`): the new request is inserted
immediately before the first non-granted request, i.e. right after the granted
prefix. -/
def insertAfterGranted (rs : List LockReq) (nr : LockReq) : List LockReq :=
  match rs with
  | [] => [nr]
  | r :: rest => if r.granted then r :: insertAfterGranted rest nr else nr :: r :: rest

/-- Pre-wait phase of `LockManager::LockTable` (`lock_manager.cpp:21-78`):
isolation checks, the already-held / upgrade-matrix tests, the
`upgrading_ != INVALID_TXN_ID` conflict test (which the source performs for
every request, before looking for the caller in the queue), then either the
upgrade placement or a plain append to the tail. -/
def lockTableStep (txn : TxnView) (q : LockQueue) (mode : LockMode) : LockStep :=
  match canTxnTakeLock txn.state txn.iso mode with
  | .assertFail => .assertFail
  | .abort r => .aborts r
  | .ok =>
    match txn.heldTable with
    | some held =>
      if held = mode then .returnsFalse
      else if ¬ canLockUpgrade held mode then .aborts .incompatibleUpgrade
      else lockTableQueuePhase txn q mode
    | none => lockTableQueuePhase txn q mode
where
  /-- The queue-latch section `lock_manager.cpp:51-78`. -/
  lockTableQueuePhase (txn : TxnView) (q : LockQueue) (mode : LockMode) : LockStep :=
    if q.upgrading ≠ none then .aborts .upgradeConflict
    else
      let nr : LockReq := ⟨txn.id, mode, false⟩
      if (q.requests.find? (fun r => r.txnId = txn.id)).isSome then
        .enqueued ⟨insertAfterGranted (eraseReqOf q.requests txn.id) nr, some txn.id⟩
      else .enqueued ⟨q.requests ++ [nr], q.upgrading⟩

/-- `LockManager::CheckAppropriateLockOnTable` (`lock_manager.cpp:472-490`):
row-level intention modes abort; a row `X` request aborts unless the txn holds
table `X`, `IX` or `SIX`; nothing else is checked — in particular a row `S`
request is not validated against the table locks at all. -/
def checkAppropriateLockOnTable (heldTable : Option LockMode) (rowMode : LockMode) :
    Option AbortReason :=
  if rowMode = .IX ∨ rowMode = .IS ∨ rowMode = .SIX then
    some .attemptedIntentionLockOnRow
  else if rowMode = .X ∧
      ¬ (heldTable = some .X ∨ heldTable = some .IX ∨ heldTable = some .SIX) then
    some .tableLockNotPresent
  else none

/-- Pre-wait phase of `LockManager::LockRow` (`lock_manager.cpp:179-233`):
the already-held test, `CheckAppropriateLockOnTable`, `CanTxnTakeLock`, then
the queue section (upgrade-conflict test only on the upgrade path here, unlike
`LockTable`) and the enqueue. -/
def lockRowStep (txn : TxnView) (q : LockQueue) (mode : LockMode) : LockStep :=
  if (txn.rowShared ∧ mode = .S) ∨ txn.rowExclusive then .returnsFalse
  else
    match checkAppropriateLockOnTable txn.heldTable mode with
    | some r => .aborts r
    | none =>
      match canTxnTakeLock txn.state txn.iso mode with
      | .assertFail => .assertFail
      | .abort r => .aborts r
      | .ok =>
        let nr : LockReq := ⟨txn.id, mode, false⟩
        if (q.requests.find? (fun r => r.txnId = txn.id)).isSome then
          if q.upgrading ≠ none then .aborts .upgradeConflict
          else .enqueued ⟨insertAfterGranted (eraseReqOf q.requests txn.id) nr, some txn.id⟩
        else .enqueued ⟨q.requests ++ [nr], q.upgrading⟩

/-- Claim C6, counterexample: txn 5 holds no lock on the table, yet its fresh
`LockTable(S)` request aborts with `UPGRADE_CONFLICT` because txn 1 is
currently upgrading on the queue — the source tests `upgrading_` before
distinguishing upgrades from fresh requests (`lock_manager.cpp:54-59`), so the
claimed "appended to the tail, never UPGRADE_CONFLICT" fails. -/
theorem C6_fresh_request_upgrade_conflict_counterexample :
    (⟨5, .growing, .repeatableRead, none, false, false⟩ : TxnView).heldTable = none ∧
      lockTableStep ⟨5, .growing, .repeatableRead, none, false, false⟩
        ⟨[⟨2, .S, true⟩, ⟨1, .X, false⟩], some 1⟩ .S = .aborts .upgradeConflict := by
  decide

/-- Claim C6, amended: in `lock_table`, every request that reaches the queue
section — upgrade or not — aborts with `UPGRADE_CONFLICT` whenever another
transaction is already upgrading on the queue; only when no upgrade is pending
is a request by a transaction holding no lock (and not already queued)
appended to the tail. -/
theorem C6_upgrade_conflict_for_every_request (txn : TxnView) (q : LockQueue)
    (mode : LockMode) (hok : canTxnTakeLock txn.state txn.iso mode = .ok)
    (hheld : ∀ held, txn.heldTable = some held → held ≠ mode ∧ canLockUpgrade held mode) :
    (∀ u, q.upgrading = some u → lockTableStep txn q mode = .aborts .upgradeConflict) ∧
      (q.upgrading = none → (q.requests.find? (fun r => r.txnId = txn.id)).isNone →
        lockTableStep txn q mode = .enqueued ⟨q.requests ++ [⟨txn.id, mode, false⟩], none⟩) := by
  have hphase :
      lockTableStep txn q mode = lockTableStep.lockTableQueuePhase txn q mode := by
    unfold lockTableStep
    rw [hok]
    match hh : txn.heldTable with
    | none => rfl
    | some held =>
      obtain ⟨hne, hup⟩ := hheld held hh
      simp [hne, hup]
  constructor
  · intro u hu
    rw [hphase]
    unfold lockTableStep.lockTableQueuePhase
    rw [if_pos (by simp [hu])]
  · intro hu hfind
    rw [hphase]
    unfold lockTableStep.lockTableQueuePhase
    rw [if_neg (by simp [hu])]
    simp only [Option.isNone_iff_eq_none] at hfind
    simp [hfind, hu]

/-- Witness for the amended claim C6 at a concrete queue with a pending
upgrade and at a concrete queue without one. -/
theorem C6_upgrade_conflict_for_every_request_witness :
    lockTableStep ⟨5, .growing, .repeatableRead, none, false, false⟩
        ⟨[⟨2, .S, true⟩, ⟨1, .X, false⟩], some 1⟩ .X = .aborts .upgradeConflict ∧
      lockTableStep ⟨5, .growing, .repeatableRead, none, false, false⟩
        ⟨[⟨2, .S, true⟩], none⟩ .X =
        .enqueued ⟨[⟨2, .S, true⟩, ⟨5, .X, false⟩], none⟩ := by
  constructor
  · exact (C6_upgrade_conflict_for_every_request _ _ _ (by decide)
      (by intro held h; cases h)).1 1 rfl
  · exact (C6_upgrade_conflict_for_every_request _ _ _ (by decide)
      (by intro held h; cases h)).2 rfl (by decide)

/-- Claim C7, counterexample: a row `S` request by a transaction holding no
table lock of any mode passes `CheckAppropriateLockOnTable` and is enqueued —
it does not abort, contrary to the claim. -/
theorem C7_row_shared_without_table_lock_counterexample :
    (⟨7, .growing, .repeatableRead, none, false, false⟩ : TxnView).heldTable = none ∧
      lockRowStep ⟨7, .growing, .repeatableRead, none, false, false⟩ ⟨[], none⟩ .S =
        .enqueued ⟨[⟨7, .S, false⟩], none⟩ := by
  decide

/-- Claim C7, amended: `lock_row` rejects row-level intention modes with
`ATTEMPTED_INTENTION_LOCK_ON_ROW`, and a row `X` request by a transaction
holding none of table `X`/`IX`/`SIX` aborts with `TABLE_LOCK_NOT_PRESENT`;
but a row `S` request is not validated against the table locks at all —
`CheckAppropriateLockOnTable` never aborts it. -/
theorem C7_row_lock_table_checks (held : Option LockMode) :
    (∀ m, (m = .IS ∨ m = .IX ∨ m = .SIX) →
        checkAppropriateLockOnTable held m = some .attemptedIntentionLockOnRow) ∧
      ((held ≠ some .X ∧ held ≠ some .IX ∧ held ≠ some .SIX) →
        checkAppropriateLockOnTable held .X = some .tableLockNotPresent) ∧
      checkAppropriateLockOnTable held .S = none := by
  refine ⟨?_, ?_, ?_⟩
  · intro m hm
    rcases hm with h | h | h <;> subst h <;> rfl
  · intro h
    obtain ⟨h1, h2, h3⟩ := h
    show (if _ then _ else _) = _
    rw [if_neg (by decide), if_pos]
    refine ⟨rfl, ?_⟩
    intro hc
    rcases hc with h | h | h
    exacts [h1 h, h2 h, h3 h]
  · rfl

/-- Witness for the amended claim C7 with no table lock held. -/
theorem C7_row_lock_table_checks_witness :
    checkAppropriateLockOnTable none .IS = some .attemptedIntentionLockOnRow ∧
      checkAppropriateLockOnTable none .X = some .tableLockNotPresent ∧
      checkAppropriateLockOnTable none .S = none :=
  ⟨(C7_row_lock_table_checks none).1 .IS (Or.inl rfl),
    (C7_row_lock_table_checks none).2.1 (by decide),
    (C7_row_lock_table_checks none).2.2⟩

/-! ## Transaction manager abort (`transaction_manager.cpp:33-79`)

`TransactionManager::Abort` performs, in source order: `ReleaseLocks(txn)`
(line 36), the table-write undo loop popping from the back of the table write
set (lines 39-57), the index-write undo loop popping from the back of the
index write set (lines 58-76), and finally `SetState(ABORTED)` (line 78).
The embedding records these steps as an action trace.  The tuple-meta effects
(`TableHeap::GetTupleMeta`/`UpdateTupleMeta` are outside the sources and are
described by the spec as tombstone flips) are carried in the action
constructors: reverting an INSERT sets `is_deleted = true` and
`delete_txn_id = txn`; reverting a DELETE sets `is_deleted = false`. -/

inductive WType where
  | insert | delete | update
deriving DecidableEq

structure TableWriteRecord where
  rid : Nat
  wtype : WType
deriving DecidableEq

structure IndexWriteRecord where
  rid : Nat
  indexOid : Nat
  wtype : WType
deriving DecidableEq

inductive AbortAct where
  | releaseLocks
  | setTombstone (rid : Nat) (txn : TxnId)
  | clearTombstone (rid : Nat)
  | indexDeleteEntry (indexOid rid : Nat)
  | indexInsertEntry (indexOid rid : Nat)
  | setAborted
deriving DecidableEq

/-- Undo of one table write (`transaction_manager.cpp:43-56`): DELETE is
un-tombstoned, INSERT is tombstoned with `delete_txn_id = txn`, and UPDATE
throws `ExecutionException("update not implement")` (modelled as `none`). -/
def undoTableRecord (txn : TxnId) (r : TableWriteRecord) : Option AbortAct :=
  match r.wtype with
  | .delete => some (.clearTombstone r.rid)
  | .insert => some (.setTombstone r.rid txn)
  | .update => none

/-- Undo of one index write (`transaction_manager.cpp:69-75`): DELETE
re-inserts the index entry, INSERT deletes it, UPDATE throws. -/
def undoIndexRecord (r : IndexWriteRecord) : Option AbortAct :=
  match r.wtype with
  | .delete => some (.indexInsertEntry r.indexOid r.rid)
  | .insert => some (.indexDeleteEntry r.indexOid r.rid)
  | .update => none

/-- The `while (!table_write_set->empty())` loop (`transaction_manager.cpp:39-57`)
takes `back()` and `pop_back()`s, so it consumes the write set back to front;
this function receives the write set already reversed and processes it head
first, which is the same order. -/
def abortTableLoop (txn : TxnId) : List TableWriteRecord → Option (List AbortAct)
  | [] => some []
  | r :: rest =>
    match undoTableRecord txn r with
    | none => none
    | some a => (abortTableLoop txn rest).map (fun l => a :: l)

/-- The `while (!index_write_set->empty())` loop (`transaction_manager.cpp:58-76`),
on the reversed index write set. -/
def abortIndexLoop : List IndexWriteRecord → Option (List AbortAct)
  | [] => some []
  | r :: rest =>
    match undoIndexRecord r with
    | none => none
    | some a => (abortIndexLoop rest).map (fun l => a :: l)

/-- `TransactionManager::Abort` (`transaction_manager.cpp:33-79`) as an action
trace: `ReleaseLocks` first (line 36), then the two LIFO undo loops, then
`SetState(ABORTED)` (line 78); `none` when an UPDATE record throws. -/
def abortTrace (txn : TxnId) (tws : List TableWriteRecord)
    (iws : List IndexWriteRecord) : Option (List AbortAct) :=
  match abortTableLoop txn tws.reverse, abortIndexLoop iws.reverse with
  | some t, some i => some ([.releaseLocks] ++ t ++ i ++ [.setAborted])
  | _, _ => none

theorem abortTableLoop_eq_map (txn : TxnId) (l : List TableWriteRecord)
    (h : ∀ r ∈ l, r.wtype ≠ .update) :
    abortTableLoop txn l =
      some (l.map (fun r =>
        if r.wtype = .delete then AbortAct.clearTombstone r.rid
        else AbortAct.setTombstone r.rid txn)) := by
  induction l with
  | nil => rfl
  | cons r rest ih =>
    have hr := h r (List.mem_cons_self r rest)
    have hrest := ih (fun x hx => h x (List.mem_cons_of_mem r hx))
    match hw : r.wtype with
    | .update => exact absurd hw hr
    | .insert => simp [abortTableLoop, undoTableRecord, hw, hrest]
    | .delete => simp [abortTableLoop, undoTableRecord, hw, hrest]

theorem abortIndexLoop_eq_map (l : List IndexWriteRecord)
    (h : ∀ r ∈ l, r.wtype ≠ .update) :
    abortIndexLoop l =
      some (l.map (fun r =>
        if r.wtype = .delete then AbortAct.indexInsertEntry r.indexOid r.rid
        else AbortAct.indexDeleteEntry r.indexOid r.rid)) := by
  induction l with
  | nil => rfl
  | cons r rest ih =>
    have hr := h r (List.mem_cons_self r rest)
    have hrest := ih (fun x hx => h x (List.mem_cons_of_mem r hx))
    match hw : r.wtype with
    | .update => exact absurd hw hr
    | .insert => simp [abortIndexLoop, undoIndexRecord, hw, hrest]
    | .delete => simp [abortIndexLoop, undoIndexRecord, hw, hrest]

/-- Claim C9, counterexample: aborting a transaction with a single table
INSERT write produces the trace `ReleaseLocks; tombstone; SetState(ABORTED)` —
the locks are released *before* the reversal, not after all reversals as the
claim states. -/
theorem C9_locks_released_before_reversals_counterexample :
    abortTrace 42 [⟨1, .insert⟩] [] =
        some [.releaseLocks, .setTombstone 1 42, .setAborted] ∧
      ¬ abortTrace 42 [⟨1, .insert⟩] [] =
        some [.setTombstone 1 42, .releaseLocks, .setAborted] := by
  decide

/-- Claim C9, amended: `abort(txn)` first releases the transaction's locks,
then reverses each table write in LIFO order (an INSERT is tombstoned with
`is_deleted = true` and `delete_txn_id = txn`, a DELETE is un-tombstoned),
then reverses each index write in LIFO order (an INSERT deletes its index
entry, a DELETE re-inserts it), and only then sets the state to ABORTED. -/
theorem C9_abort_releases_locks_first_then_undoes_lifo (txn : TxnId)
    (tws : List TableWriteRecord) (iws : List IndexWriteRecord)
    (htw : ∀ r ∈ tws, r.wtype ≠ .update) (hiw : ∀ r ∈ iws, r.wtype ≠ .update) :
    abortTrace txn tws iws =
      some ([.releaseLocks] ++
        tws.reverse.map (fun r =>
          if r.wtype = .delete then AbortAct.clearTombstone r.rid
          else AbortAct.setTombstone r.rid txn) ++
        iws.reverse.map (fun r =>
          if r.wtype = .delete then AbortAct.indexInsertEntry r.indexOid r.rid
          else AbortAct.indexDeleteEntry r.indexOid r.rid) ++
        [.setAborted]) := by
  have h1 := abortTableLoop_eq_map txn tws.reverse
    (fun r hr => htw r (List.mem_reverse.mp hr))
  have h2 := abortIndexLoop_eq_map iws.reverse
    (fun r hr => hiw r (List.mem_reverse.mp hr))
  simp [abortTrace, h1, h2]

/-- Witness for the amended claim C9 with one table write and one index
write. -/
theorem C9_abort_order_witness :
    abortTrace 42 [⟨1, .insert⟩, ⟨2, .delete⟩] [⟨3, 9, .insert⟩] =
      some [.releaseLocks, .clearTombstone 2, .setTombstone 1 42,
        .indexDeleteEntry 9 3, .setAborted] := by
  have h := C9_abort_releases_locks_first_then_undoes_lifo 42
    [⟨1, .insert⟩, ⟨2, .delete⟩] [⟨3, 9, .insert⟩] (by decide) (by decide)
  simpa using h

/-! ## Buffer pool manager (`buffer_pool_manager.cpp`)

The frame array `pages_` is modelled as a total function from frame index to
frame metadata (indices outside the pool are never touched by the modelled
runs); a frame's stored page id is `Option Nat`, with `none` for the
`INVALID_PAGE_ID` sentinel.  The page table is an association list.  Disk
contents are not modelled — only the metadata the claim is about.
`Page::ResetMemory` (in the skeleton header `page.h`, outside the sources)
clears the data buffer only; it does not touch `page_id_`, `pin_count_` or
`is_dirty_`, which is why `DeletePage` leaves the stale page id in the
frame. -/

structure Frame where
  pageId : Option Nat
  pinCount : Nat
  isDirty : Bool

/-- Assignment `pages_[f].page_id_ = ...`. -/
def Frame.withPageId (fr : Frame) (p : Option Nat) : Frame :=
  { fr with pageId := p }

/-- Assignment to `pages_[f].pin_count_`. -/
def Frame.withPin (fr : Frame) (n : Nat) : Frame :=
  { fr with pinCount := n }

/-- Assignment to `pages_[f].is_dirty_`. -/
def Frame.withDirty (fr : Frame) (b : Bool) : Frame :=
  { fr with isDirty := b }

@[simp] theorem Frame.withPin_pageId (fr : Frame) (n : Nat) :
    (fr.withPin n).pageId = fr.pageId := rfl

@[simp] theorem Frame.withDirty_pageId (fr : Frame) (b : Bool) :
    (fr.withDirty b).pageId = fr.pageId := rfl

@[simp] theorem Frame.withPageId_pageId (fr : Frame) (p : Option Nat) :
    (fr.withPageId p).pageId = p := rfl

structure BPM where
  frames : Nat → Frame
  pageTable : List (Nat × Nat)
  freeList : List Nat
  repl : Replacer
  nextPageId : Nat

def ptLookup (t : List (Nat × Nat)) (p : Nat) : Option Nat :=
  (t.find? (fun e => e.1 = p)).map Prod.snd

def ptErase (t : List (Nat × Nat)) (p : Nat) : List (Nat × Nat) :=
  t.filter (fun e => e.1 ≠ p)

/-- Overwriting store `page_table_[p] = f` of a `std::unordered_map`;
modelled as erase-then-append (entry order is irrelevant to lookups). -/
def ptSet (t : List (Nat × Nat)) (p f : Nat) : List (Nat × Nat) :=
  ptErase t p ++ [(p, f)]

/-- Pointwise frame update of the `pages_` array. -/
def setFrame (fs : Nat → Frame) (i : Nat) (fr : Frame) : Nat → Frame :=
  fun j => if j = i then fr else fs j

/-- `BufferPoolManager::BufferPoolManager` (`buffer_pool_manager.cpp:21-32`):
default-constructed pages (sentinel page id, pin 0, clean), every frame in the
free list, a fresh replacer. -/
def bpmInit (poolSize k : Nat) : BPM :=
  ⟨fun _ => ⟨none, 0, false⟩, [], List.range poolSize, replacerInit k, 0⟩

/-- `BufferPoolManager::FlushPage` (`buffer_pool_manager.cpp:114-122`): write
back (disk not modelled) and clear the dirty flag of the mapped frame. -/
def bpmFlushPage (s : BPM) (p : Nat) : Bool × BPM :=
  match ptLookup s.pageTable p with
  | none => (false, s)
  | some f =>
    (true, { s with frames := setFrame s.frames f ((s.frames f).withDirty false) })

/-- Frame acquisition shared by `NewPage` and `FetchPage`
(`buffer_pool_manager.cpp:40-53` and `76-88`): prefer the free list; otherwise
evict, flush the prior resident if dirty (`FlushPage(evicted_page_id)` is a
no-op when the stored id is the sentinel, since `INVALID_PAGE_ID` is never a
table key), drop its mapping, and `ResetMemory` (data only).  `none` when no
frame is available. -/
def bpmAcquireFrame (s : BPM) : Option (Nat × BPM) :=
  match s.freeList with
  | f :: rest => some (f, { s with freeList := rest })
  | [] =>
    match evict s.repl with
    | (none, _) => none
    | (some f, r) =>
      let s := { s with repl := r }
      let s :=
        match (s.frames f).pageId with
        | some q =>
          let s := if (s.frames f).isDirty then (bpmFlushPage s q).2 else s
          { s with pageTable := ptErase s.pageTable q }
        | none => s
      some (f, s)

/-- Mapping installation shared by `NewPage` (`buffer_pool_manager.cpp:55-62`)
and the miss path of `FetchPage` (`buffer_pool_manager.cpp:90-97`): store the
page id in the frame, install the table entry, record the access, unmark
evictable, pin. -/
def bpmInstall (s : BPM) (f p : Nat) : BPM :=
  let s := { s with frames := setFrame s.frames f ((s.frames f).withPageId (some p)) }
  let s := { s with pageTable := ptSet s.pageTable p f }
  let s := { s with repl := setEvictable (recordAccess s.repl f) f false }
  { s with frames := setFrame s.frames f ((s.frames f).withPin ((s.frames f).pinCount + 1)) }

/-- `BufferPoolManager::NewPage` (`buffer_pool_manager.cpp:36-63`). -/
def bpmNewPage (s : BPM) : Option Nat × BPM :=
  match bpmAcquireFrame s with
  | none => (none, s)
  | some (f, s) =>
    let p := s.nextPageId
    let s := { s with nextPageId := s.nextPageId + 1 }
    (some p, bpmInstall s f p)

/-- `BufferPoolManager::FetchPage` (`buffer_pool_manager.cpp:65-98`): a
resident page is just re-pinned; a miss acquires a frame, reads from disk
(not modelled) and installs the mapping. -/
def bpmFetchPage (s : BPM) (p : Nat) : Bool × BPM :=
  match ptLookup s.pageTable p with
  | some f =>
    let s := { s with repl := setEvictable (recordAccess s.repl f) f false }
    (true, { s with frames := setFrame s.frames f ((s.frames f).withPin ((s.frames f).pinCount + 1)) })
  | none =>
    match bpmAcquireFrame s with
    | none => (false, s)
    | some (f, s) => (true, bpmInstall s f p)

/-- `BufferPoolManager::UnpinPage` (`buffer_pool_manager.cpp:100-112`). -/
def bpmUnpinPage (s : BPM) (p : Nat) (dirty : Bool) : Bool × BPM :=
  match ptLookup s.pageTable p with
  | none => (false, s)
  | some f =>
    if (s.frames f).pinCount = 0 then (false, s)
    else
      let pin := (s.frames f).pinCount - 1
      let s := { s with frames := setFrame s.frames f ((s.frames f).withPin pin) }
      let s := if pin = 0 then { s with repl := setEvictable s.repl f true } else s
      (true, { s with frames := setFrame s.frames f ((s.frames f).withDirty ((s.frames f).isDirty || dirty)) })

/-- `BufferPoolManager::DeletePage` (`buffer_pool_manager.cpp:130-148`):
a non-resident page deletes trivially; a pinned page refuses; otherwise flush
if dirty, drop the mapping, `ResetMemory` (data only — the stored page id is
left behind), and return the frame to the free list. -/
def bpmDeletePage (s : BPM) (p : Nat) : Bool × BPM :=
  match ptLookup s.pageTable p with
  | none => (true, s)
  | some f =>
    if 0 < (s.frames f).pinCount then (false, s)
    else
      let s := if (s.frames f).isDirty then (bpmFlushPage s p).2 else s
      let s := { s with pageTable := ptErase s.pageTable p }
      (true, { s with freeList := s.freeList ++ [f] })

inductive BPOp where
  | newPage
  | fetchPage (p : Nat)
  | unpinPage (p : Nat) (dirty : Bool)
  | flushPage (p : Nat)
  | deletePage (p : Nat)

def bpmRunOp (s : BPM) : BPOp → BPM
  | .newPage => (bpmNewPage s).2
  | .fetchPage p => (bpmFetchPage s p).2
  | .unpinPage p d => (bpmUnpinPage s p d).2
  | .flushPage p => (bpmFlushPage s p).2
  | .deletePage p => (bpmDeletePage s p).2

/-- The buffer pool state after a sequence of operations on a freshly
constructed pool. -/
def bpmRun (poolSize k : Nat) (ops : List BPOp) : BPM :=
  ops.foldl bpmRunOp (bpmInit poolSize k)

/-! ### Page-table / frame consistency (claim C8)

The invariant that survives every operation is the forward direction only:
every page-table entry `p ↦ f` has `pages_[f].page_id_ == p`.  The backward
direction ("every frame with a non-sentinel page id is mapped") is destroyed
by `DeletePage`, which erases the mapping but leaves the stale id in the
frame. -/

theorem ptLookup_nil (p : Nat) : ptLookup [] p = none := rfl

theorem ptLookup_cons (e : Nat × Nat) (t : List (Nat × Nat)) (p : Nat) :
    ptLookup (e :: t) p = if e.1 = p then some e.2 else ptLookup t p := by
  by_cases h : e.1 = p <;> simp [ptLookup, List.find?_cons, h]

theorem ptLookup_erase_self (t : List (Nat × Nat)) (p : Nat) :
    ptLookup (ptErase t p) p = none := by
  induction t with
  | nil => rfl
  | cons e t ih =>
    by_cases h : e.1 = p
    · simpa [ptErase, List.filter_cons, h] using ih
    · simpa [ptErase, List.filter_cons, h, ptLookup_cons] using ih

theorem ptLookup_erase_ne (t : List (Nat × Nat)) (p q : Nat) (h : q ≠ p) :
    ptLookup (ptErase t p) q = ptLookup t q := by
  induction t with
  | nil => rfl
  | cons e t ih =>
    by_cases he : e.1 = p
    · have hdrop : ptErase (e :: t) p = ptErase t p := by
        simp [ptErase, List.filter_cons, he]
      rw [hdrop, ih, ptLookup_cons, if_neg (fun hc : e.1 = q => h ((he.symm.trans hc).symm))]
    · have hkeep : ptErase (e :: t) p = e :: ptErase t p := by
        simp [ptErase, List.filter_cons, he]
      rw [hkeep, ptLookup_cons, ptLookup_cons]
      by_cases hq : e.1 = q
      · simp [hq]
      · simp only [hq, if_false]
        exact ih

theorem ptLookup_append (t1 t2 : List (Nat × Nat)) (p : Nat)
    (h : ptLookup t1 p = none) : ptLookup (t1 ++ t2) p = ptLookup t2 p := by
  induction t1 with
  | nil => rfl
  | cons e t ih =>
    rw [ptLookup_cons] at h
    by_cases he : e.1 = p
    · simp [he] at h
    · rw [List.cons_append, ptLookup_cons, if_neg he]
      exact ih (by simpa [he] using h)

theorem ptLookup_set_self (t : List (Nat × Nat)) (p f : Nat) :
    ptLookup (ptSet t p f) p = some f := by
  rw [ptSet, ptLookup_append _ _ _ (ptLookup_erase_self t p)]
  simp [ptLookup_cons]

theorem ptLookup_set_ne (t : List (Nat × Nat)) (p f q : Nat) (h : q ≠ p) :
    ptLookup (ptSet t p f) q = ptLookup t q := by
  have h2 : ptLookup (ptErase t p) q = ptLookup t q := ptLookup_erase_ne t p q h
  rw [ptSet]
  by_cases hn : ptLookup t q = none
  · rw [ptLookup_append _ _ _ (h2.trans hn)]
    rw [ptLookup_cons, if_neg (fun hc : p = q => h hc.symm), ptLookup_nil, hn]
  · rw [← h2]
    generalize ptErase t p = t2 at h2 ⊢
    induction t2 with
    | nil => rw [ptLookup_nil] at h2; exact absurd h2.symm hn
    | cons e t2 ih =>
      rw [ptLookup_cons] at h2 ⊢
      rw [List.cons_append, ptLookup_cons]
      by_cases he : e.1 = q
      · simp [he]
      · simp only [he, if_false] at h2 ⊢
        exact ih h2

/-- Forward page-table consistency: every table entry points at a frame that
stores exactly that page id. -/
def TableMapsConsistently (s : BPM) : Prop :=
  ∀ p f, ptLookup s.pageTable p = some f → (s.frames f).pageId = some p

/-- Frames on the free list are unmapped. -/
def FreeUnmapped (s : BPM) : Prop :=
  ∀ f ∈ s.freeList, ∀ p, ptLookup s.pageTable p ≠ some f

def BPMInv (s : BPM) : Prop :=
  TableMapsConsistently s ∧ FreeUnmapped s ∧ s.freeList.Nodup

theorem bpmFlushPage_fields (s : BPM) (p : Nat) :
    (bpmFlushPage s p).2.pageTable = s.pageTable ∧
      (bpmFlushPage s p).2.freeList = s.freeList ∧
      ∀ f, ((bpmFlushPage s p).2.frames f).pageId = (s.frames f).pageId := by
  cases hl : ptLookup s.pageTable p with
  | none => simp [bpmFlushPage, hl]
  | some g =>
    refine ⟨by simp [bpmFlushPage, hl], by simp [bpmFlushPage, hl], fun f => ?_⟩
    simp only [bpmFlushPage, hl]
    by_cases h : f = g <;> simp [setFrame, h]

theorem bpmInv_flush (s : BPM) (p : Nat) (h : BPMInv s) : BPMInv (bpmFlushPage s p).2 := by
  obtain ⟨h1, h2, h3⟩ := h
  obtain ⟨ht, hf, hp⟩ := bpmFlushPage_fields s p
  refine ⟨?_, ?_, ?_⟩
  · intro q f hq
    rw [ht] at hq
    rw [hp f]
    exact h1 q f hq
  · intro f hmem q
    rw [hf] at hmem
    rw [ht]
    exact h2 f hmem q
  · rw [hf]; exact h3

theorem acquireEvictInv (s E : BPM) (hInv : BPMInv s) (g q : Nat)
    (hpid : (s.frames g).pageId = some q)
    (ht : E.pageTable = ptErase s.pageTable q) (hfr : E.freeList = [])
    (hpg : ∀ x, (E.frames x).pageId = (s.frames x).pageId) :
    BPMInv E ∧ (g ∉ E.freeList) ∧ (∀ p, ptLookup E.pageTable p ≠ some g) ∧
      (∀ x, (E.frames x).pageId = (s.frames x).pageId) := by
  obtain ⟨h1, h2, h3⟩ := hInv
  refine ⟨⟨?_, ?_, ?_⟩, ?_, ?_, hpg⟩
  · intro p x hp
    rw [ht] at hp
    by_cases hpq : p = q
    · rw [hpq, ptLookup_erase_self] at hp
      exact Option.noConfusion hp
    · rw [ptLookup_erase_ne _ _ _ hpq] at hp
      rw [hpg x]
      exact h1 p x hp
  · intro x hx p
    rw [hfr] at hx
    exact absurd hx (List.not_mem_nil x)
  · rw [hfr]; exact List.nodup_nil
  · rw [hfr]; exact List.not_mem_nil g
  · intro p hp
    rw [ht] at hp
    by_cases hpq : p = q
    · rw [hpq, ptLookup_erase_self] at hp
      exact Option.noConfusion hp
    · rw [ptLookup_erase_ne _ _ _ hpq] at hp
      have := h1 p g hp
      rw [hpid] at this
      exact hpq (Option.some.inj this).symm

theorem acquireEvictInvNone (s E : BPM) (hInv : BPMInv s) (g : Nat)
    (hpid : (s.frames g).pageId = none)
    (ht : E.pageTable = s.pageTable) (hfr : E.freeList = [])
    (hpg : ∀ x, (E.frames x).pageId = (s.frames x).pageId) :
    BPMInv E ∧ (g ∉ E.freeList) ∧ (∀ p, ptLookup E.pageTable p ≠ some g) ∧
      (∀ x, (E.frames x).pageId = (s.frames x).pageId) := by
  obtain ⟨h1, h2, h3⟩ := hInv
  refine ⟨⟨?_, ?_, ?_⟩, ?_, ?_, hpg⟩
  · intro p x hp
    rw [ht] at hp
    rw [hpg x]
    exact h1 p x hp
  · intro x hx p
    rw [hfr] at hx
    exact absurd hx (List.not_mem_nil x)
  · rw [hfr]; exact List.nodup_nil
  · rw [hfr]; exact List.not_mem_nil g
  · intro p hp
    rw [ht] at hp
    have := h1 p g hp
    rw [hpid] at this
    exact Option.noConfusion this

theorem bpmAcquireFrame_spec (s : BPM) (hInv : BPMInv s) (f : Nat) (s2 : BPM)
    (h : bpmAcquireFrame s = some (f, s2)) :
    BPMInv s2 ∧ (f ∉ s2.freeList) ∧ (∀ p, ptLookup s2.pageTable p ≠ some f) ∧
      (∀ g, (s2.frames g).pageId = (s.frames g).pageId) := by
  obtain ⟨h1, h2, h3⟩ := hInv
  cases hfl : s.freeList with
  | cons g rest =>
    simp only [bpmAcquireFrame, hfl, Option.some.injEq, Prod.mk.injEq] at h
    obtain ⟨hg, hs⟩ := h
    subst hg
    subst hs
    have hnd := hfl ▸ h3
    refine ⟨⟨h1, ?_, (List.nodup_cons.mp hnd).2⟩, (List.nodup_cons.mp hnd).1, ?_, fun g2 => rfl⟩
    · intro x hx p
      exact h2 x (by rw [hfl]; exact List.mem_cons_of_mem _ hx) p
    · intro p
      exact h2 g (by rw [hfl]; exact List.mem_cons_self _ _) p
  | nil =>
    cases hev : evict s.repl with
    | mk o r =>
      cases o with
      | none => simp [bpmAcquireFrame, hfl, hev] at h
      | some g =>
        cases hpid : (s.frames g).pageId with
        | none =>
          simp only [bpmAcquireFrame, hfl, hev, hpid, Option.some.injEq, Prod.mk.injEq] at h
          obtain ⟨hg, hs⟩ := h
          subst hg
          subst hs
          exact acquireEvictInvNone s _ ⟨h1, h2, h3⟩ _ hpid rfl rfl (fun x => rfl)
        | some q =>
          by_cases hd : (s.frames g).isDirty
          · simp only [bpmAcquireFrame, hfl, hev, hpid, hd, if_true,
              Option.some.injEq, Prod.mk.injEq] at h
            obtain ⟨hg, hs⟩ := h
            subst hg
            subst hs
            obtain ⟨hta, hfra, hpga⟩ :=
              bpmFlushPage_fields { s with freeList := ([] : List Nat), repl := r } q
            refine acquireEvictInv s _ ⟨h1, h2, h3⟩ _ q hpid ?_ ?_ ?_
            · show ptErase
                (bpmFlushPage { s with freeList := ([] : List Nat), repl := r } q).2.pageTable q =
                ptErase s.pageTable q
              rw [hta]
            · show (bpmFlushPage { s with freeList := ([] : List Nat), repl := r } q).2.freeList = []
              rw [hfra]
            · intro x
              show ((bpmFlushPage { s with freeList := ([] : List Nat), repl := r } q).2.frames x).pageId =
                (s.frames x).pageId
              rw [hpga x]
          · simp only [bpmAcquireFrame, hfl, hev, hpid, hd, if_false,
              Option.some.injEq, Prod.mk.injEq] at h
            obtain ⟨hg, hs⟩ := h
            subst hg
            subst hs
            exact acquireEvictInv s _ ⟨h1, h2, h3⟩ _ q hpid rfl rfl (fun x => rfl)

theorem bpmInstall_fields (s : BPM) (f p : Nat) :
    (bpmInstall s f p).pageTable = ptSet s.pageTable p f ∧
      (bpmInstall s f p).freeList = s.freeList ∧
      ∀ g, ((bpmInstall s f p).frames g).pageId =
        if g = f then some p else (s.frames g).pageId := by
  refine ⟨rfl, rfl, fun g => ?_⟩
  by_cases h : g = f <;> simp [bpmInstall, setFrame, h]

theorem bpmInstall_inv (s : BPM) (f p : Nat) (hInv : BPMInv s)
    (hfree : f ∉ s.freeList) (hunmap : ∀ q, ptLookup s.pageTable q ≠ some f) :
    BPMInv (bpmInstall s f p) := by
  obtain ⟨h1, h2, h3⟩ := hInv
  obtain ⟨htab, hfl, hfr⟩ := bpmInstall_fields s f p
  refine ⟨?_, ?_, ?_⟩
  · intro q x hq
    rw [htab] at hq
    rw [hfr x]
    by_cases hqp : q = p
    · subst hqp
      rw [ptLookup_set_self] at hq
      rw [if_pos (Option.some.inj hq).symm]
    · rw [ptLookup_set_ne _ _ _ _ hqp] at hq
      have hxf : x ≠ f := fun hc => hunmap q (hc ▸ hq)
      rw [if_neg hxf]
      exact h1 q x hq
  · intro x hx q
    rw [hfl] at hx
    rw [htab]
    by_cases hqp : q = p
    · subst hqp
      rw [ptLookup_set_self]
      intro hc
      exact hfree ((Option.some.inj hc) ▸ hx)
    · rw [ptLookup_set_ne _ _ _ _ hqp]
      exact h2 x hx q
  · rw [hfl]; exact h3

theorem bpmInv_newPage (s : BPM) (h : BPMInv s) : BPMInv (bpmNewPage s).2 := by
  cases hacq : bpmAcquireFrame s with
  | none => simpa [bpmNewPage, hacq] using h
  | some fs =>
    obtain ⟨f, s2⟩ := fs
    obtain ⟨hInv2, hfree, hunmap, _⟩ := bpmAcquireFrame_spec s h f s2 hacq
    have : (bpmNewPage s).2 = bpmInstall { s2 with nextPageId := s2.nextPageId + 1 } f s2.nextPageId := by
      simp [bpmNewPage, hacq]
    rw [this]
    exact bpmInstall_inv _ f _ hInv2 hfree hunmap

theorem bpmInv_fetchPage (s : BPM) (p : Nat) (h : BPMInv s) : BPMInv (bpmFetchPage s p).2 := by
  obtain ⟨h1, h2, h3⟩ := h
  cases hl : ptLookup s.pageTable p with
  | some f =>
    have hpg : ∀ g, (((bpmFetchPage s p).2).frames g).pageId = (s.frames g).pageId := by
      intro g
      by_cases hgf : g = f <;> simp [bpmFetchPage, hl, setFrame, hgf]
    have htab : ((bpmFetchPage s p).2).pageTable = s.pageTable := by
      simp [bpmFetchPage, hl]
    have hfr : ((bpmFetchPage s p).2).freeList = s.freeList := by
      simp [bpmFetchPage, hl]
    refine ⟨?_, ?_, ?_⟩
    · intro q x hq
      rw [htab] at hq
      rw [hpg x]
      exact h1 q x hq
    · intro x hx q
      rw [hfr] at hx
      rw [htab]
      exact h2 x hx q
    · rw [hfr]; exact h3
  | none =>
    cases hacq : bpmAcquireFrame s with
    | none => simpa [bpmFetchPage, hl, hacq] using And.intro h1 (And.intro h2 h3)
    | some fs =>
      obtain ⟨f, s2⟩ := fs
      obtain ⟨hInv2, hfree, hunmap, _⟩ := bpmAcquireFrame_spec s ⟨h1, h2, h3⟩ f s2 hacq
      have : (bpmFetchPage s p).2 = bpmInstall s2 f p := by
        simp [bpmFetchPage, hl, hacq]
      rw [this]
      exact bpmInstall_inv _ f _ hInv2 hfree hunmap

theorem bpmInv_unpinPage (s : BPM) (p : Nat) (d : Bool) (h : BPMInv s) :
    BPMInv (bpmUnpinPage s p d).2 := by
  obtain ⟨h1, h2, h3⟩ := h
  cases hl : ptLookup s.pageTable p with
  | none => simpa [bpmUnpinPage, hl] using And.intro h1 (And.intro h2 h3)
  | some f =>
    by_cases hpin : (s.frames f).pinCount = 0
    · simpa [bpmUnpinPage, hl, hpin] using And.intro h1 (And.intro h2 h3)
    · have htab : ((bpmUnpinPage s p d).2).pageTable = s.pageTable := by
        by_cases hz : (s.frames f).pinCount - 1 = 0 <;>
          simp [bpmUnpinPage, hl, hpin, hz]
      have hfr : ((bpmUnpinPage s p d).2).freeList = s.freeList := by
        by_cases hz : (s.frames f).pinCount - 1 = 0 <;>
          simp [bpmUnpinPage, hl, hpin, hz]
      have hpg : ∀ g, (((bpmUnpinPage s p d).2).frames g).pageId = (s.frames g).pageId := by
        intro g
        by_cases hz : (s.frames f).pinCount - 1 = 0 <;>
          by_cases hgf : g = f <;>
            simp [bpmUnpinPage, hl, hpin, hz, setFrame, hgf]
      refine ⟨?_, ?_, ?_⟩
      · intro q x hq
        rw [htab] at hq
        rw [hpg x]
        exact h1 q x hq
      · intro x hx q
        rw [hfr] at hx
        rw [htab]
        exact h2 x hx q
      · rw [hfr]; exact h3

theorem bpmInv_deletePage (s : BPM) (p : Nat) (h : BPMInv s) :
    BPMInv (bpmDeletePage s p).2 := by
  obtain ⟨h1, h2, h3⟩ := h
  cases hl : ptLookup s.pageTable p with
  | none => simpa [bpmDeletePage, hl] using And.intro h1 (And.intro h2 h3)
  | some f =>
    by_cases hpin : 0 < (s.frames f).pinCount
    · simpa [bpmDeletePage, hl, hpin] using And.intro h1 (And.intro h2 h3)
    · have hsplit :
          ((bpmDeletePage s p).2).pageTable =
            ptErase (if (s.frames f).isDirty then (bpmFlushPage s p).2 else s).pageTable p ∧
          ((bpmDeletePage s p).2).freeList =
            (if (s.frames f).isDirty then (bpmFlushPage s p).2 else s).freeList ++ [f] ∧
          ∀ g, (((bpmDeletePage s p).2).frames g).pageId =
            ((if (s.frames f).isDirty then (bpmFlushPage s p).2 else s).frames g).pageId := by
        by_cases hd : (s.frames f).isDirty <;>
          simp [bpmDeletePage, hl, hpin, hd]
      have hmid : (if (s.frames f).isDirty then (bpmFlushPage s p).2 else s).pageTable = s.pageTable ∧
          (if (s.frames f).isDirty then (bpmFlushPage s p).2 else s).freeList = s.freeList ∧
          ∀ g, ((if (s.frames f).isDirty then (bpmFlushPage s p).2 else s).frames g).pageId =
            (s.frames g).pageId := by
        by_cases hd : (s.frames f).isDirty
        · simpa [hd] using bpmFlushPage_fields s p
        · simp [hd]
      obtain ⟨ht1, hf1, hp1⟩ := hsplit
      obtain ⟨ht2, hf2, hp2⟩ := hmid
      have hfmem : f ∉ s.freeList := fun hc => h2 f hc p hl
      refine ⟨?_, ?_, ?_⟩
      · intro q x hq
        rw [ht1, ht2] at hq
        by_cases hqp : q = p
        · rw [hqp, ptLookup_erase_self] at hq
          exact Option.noConfusion hq
        · rw [ptLookup_erase_ne _ _ _ hqp] at hq
          rw [hp1 x, hp2 x]
          exact h1 q x hq
      · intro x hx q
        rw [hf1, hf2] at hx
        rw [ht1, ht2]
        rcases List.mem_append.mp hx with hx | hx
        · by_cases hqp : q = p
          · rw [hqp, ptLookup_erase_self]
            exact fun hc => Option.noConfusion hc
          · rw [ptLookup_erase_ne _ _ _ hqp]
            exact h2 x hx q
        · have hxf : x = f := by simpa using hx
          subst hxf
          by_cases hqp : q = p
          · rw [hqp, ptLookup_erase_self]
            exact fun hc => Option.noConfusion hc
          · rw [ptLookup_erase_ne _ _ _ hqp]
            intro hc
            have hq1 := h1 q x hc
            have hq2 := h1 p x hl
            rw [hq1] at hq2
            exact hqp (Option.some.inj hq2)
      · rw [hf1, hf2]
        simpa [List.nodup_append] using ⟨h3, hfmem⟩

theorem bpmInv_runOp (s : BPM) (op : BPOp) (h : BPMInv s) : BPMInv (bpmRunOp s op) := by
  cases op with
  | newPage => exact bpmInv_newPage s h
  | fetchPage p => exact bpmInv_fetchPage s p h
  | unpinPage p d => exact bpmInv_unpinPage s p d h
  | flushPage p => exact bpmInv_flush s p h
  | deletePage p => exact bpmInv_deletePage s p h

theorem bpmInv_foldl (ops : List BPOp) (s : BPM) (h : BPMInv s) :
    BPMInv (ops.foldl bpmRunOp s) := by
  induction ops generalizing s with
  | nil => exact h
  | cons op rest ih =>
    rw [List.foldl_cons]
    exact ih _ (bpmInv_runOp s op h)

theorem bpmInv_init (poolSize k : Nat) : BPMInv (bpmInit poolSize k) := by
  refine ⟨?_, ?_, List.nodup_range poolSize⟩
  · intro p f hp
    rw [show (bpmInit poolSize k).pageTable = [] from rfl, ptLookup_nil] at hp
    exact Option.noConfusion hp
  · intro f _ p hp
    rw [show (bpmInit poolSize k).pageTable = [] from rfl, ptLookup_nil] at hp
    exact Option.noConfusion hp

theorem bpmInv_run (poolSize k : Nat) (ops : List BPOp) : BPMInv (bpmRun poolSize k ops) :=
  bpmInv_foldl ops _ (bpmInv_init poolSize k)

/-- Claim C8, counterexample: on a pool of 2 frames (`k = 2`), the sequence
`NewPage; UnpinPage(0); DeletePage(0)` leaves frame 0 storing the non-sentinel
page id 0 while the page table no longer maps page 0 — `DeletePage` erases the
mapping and `ResetMemory` clears only the data buffer, so the claimed
"iff" fails in the frame-to-table direction. -/
theorem C8_stale_frame_id_counterexample :
    ptLookup (bpmRun 2 2 [.newPage, .unpinPage 0 false, .deletePage 0]).pageTable 0 = none ∧
      ((bpmRun 2 2 [.newPage, .unpinPage 0 false, .deletePage 0]).frames 0).pageId = some 0 := by
  decide

/-- Claim C8, amended: after every finite sequence of `NewPage`, `FetchPage`,
`UnpinPage`, `FlushPage` and `DeletePage` operations on a freshly constructed
buffer pool, every page-table entry `p ↦ f` has frame `f` storing exactly the
non-sentinel page id `p` (the table-to-frame direction); the converse fails
because `DeletePage` leaves the stale page id in the freed frame. -/
theorem C8_page_table_maps_to_matching_frames (poolSize k : Nat) (ops : List BPOp)
    (p f : Nat) (h : ptLookup (bpmRun poolSize k ops).pageTable p = some f) :
    ((bpmRun poolSize k ops).frames f).pageId = some p :=
  (bpmInv_run poolSize k ops).1 p f h

/-- Witness for the amended claim C8: one `NewPage` on a fresh pool maps page
0 to frame 0, and frame 0 stores page id 0. -/
theorem C8_page_table_maps_to_matching_frames_witness :
    ((bpmRun 2 2 [.newPage]).frames 0).pageId = some 0 :=
  C8_page_table_maps_to_matching_frames 2 2 [.newPage] 0 0 (by decide)
/-! ## B+tree index (`b_plus_tree.cpp`, `b_plus_tree_internal_page.cpp`,
`index_iterator.cpp`)

Pages are stored one node per page id and resolved through the buffer pool;
functionally the tree is the induced inductive structure, which is what the
embedding uses.  An internal page is the ordered array
`[(k₀ unused, P₀), (k₁, P₁), …]` — here each child page id is replaced by the
child node itself.  Latch crabbing (`Context`, the write set, `header_page_`)
only serialises concurrent access and does not change the sequential result,
so it is not modelled.  The leaf right-link chain (`next_page_id_`): a leaf
split splices the new sibling directly after the split leaf
(`b_plus_tree.cpp:146-148`), and leaves are only ever created as the first
root or as such siblings, so the chain enumerates the leaves exactly in
left-to-right tree order; iteration is modelled on that list of leaves.

`BPlusTreePage::IsFull` and `GetMinSize` live in `b_plus_tree_page.cpp`,
which is not among the sources.  Modelled from the spec: a node is *safe for
insert* iff `size < max_size` (spec §4.E), so `IsFull` is `size ≥ max_size`;
an internal split is "left-biased" promoting the middle key (spec §4.E), so
the internal `GetMinSize` used as the split point of the `max+1` entries is
`max/2 + 1`. -/

inductive BPTNode where
  | leaf (kvs : List KV)
  | inner (es : List (Key × BPTNode))

/-- Modelled from the spec: `IsFull` — insert-safety is `size < max_size`. -/
def isFull (maxSize size : Nat) : Bool :=
  maxSize ≤ size

/-- Modelled from the spec: the internal-page `GetMinSize` (left-biased middle
split). -/
def internalMin (im : Nat) : Nat :=
  im / 2 + 1

/-- `BPlusTreeInternalPage::Find` (`b_plus_tree_internal_page.cpp:49-53`):
`std::upper_bound` over slots `1..size-1` with `comp(key, kv.first) < 0`, then
step back one slot — i.e. the index of the last slot (0 included) whose key is
not greater than the probe. -/
def childIdx (es : List (Key × BPTNode)) (k : Key) : Nat :=
  ((es.drop 1).takeWhile (fun e => ¬ (k < e.1))).length

/-- Right-to-left scan of `BPlusTreeInternalPage::Insert(key, value, comp)`
(`b_plus_tree_internal_page.cpp:56-75`) on the reversed slots `1..size-1`:
a slot with key below the new key is the stop position (the new pair goes just
after it); a slot with larger key shifts right.  Slot 0 is never compared. -/
def innerInsertRev (kv : Key × BPTNode) : List (Key × BPTNode) → List (Key × BPTNode)
  | [] => [kv]
  | e :: rest => if kv.1 < e.1 then e :: innerInsertRev kv rest else kv :: e :: rest

/-- `BPlusTreeInternalPage::Insert(key, value, comp)` as a list transformer:
slot 0 is kept in place, the pair is inserted into the tail by the
right-to-left scan.  With `size = 0` the pair lands in slot 0
(`k = -1 < 1`), with `size = 1` in slot 1, matching the source fast path. -/
def innerInsert (es : List (Key × BPTNode)) (kv : Key × BPTNode) : List (Key × BPTNode) :=
  match es with
  | [] => [kv]
  | e0 :: rest => e0 :: (innerInsertRev kv rest.reverse).reverse

/-- The `std::upper_bound(array.begin() + 1, array.end(), …)` insertion
position used by `InsertInParent` on its local vector
(`b_plus_tree.cpp:184-187`). -/
def innerUbPos (es : List (Key × BPTNode)) (k : Key) : Nat :=
  1 + ((es.drop 1).takeWhile (fun e => ¬ (k < e.1))).length

/-- The `array.insert(it, {key, right_child_pid})` of `InsertInParent`
(`b_plus_tree.cpp:187`). -/
def innerInsertVec (es : List (Key × BPTNode)) (kv : Key × BPTNode) :
    List (Key × BPTNode) :=
  insAt es (innerUbPos es kv.1) kv

/-- Outcome of inserting into a subtree: duplicate (`return false`), an
updated node, or a split — the original page keeps the left half, the new
right sibling and the separator pushed to the parent
(`InsertInParent(ctx, new_leaf->KeyAt(0), new_pid)`, `b_plus_tree.cpp:150`). -/
inductive InsRes where
  | dup
  | done (n : BPTNode)
  | split (l : BPTNode) (sep : Key) (r : BPTNode)

/-- Outcome of inserting below an internal node, relative to its child list:
`splitChild` has the split child already replaced by its left half, with the
separator and right sibling still to be placed in this node. -/
inductive InnerRes where
  | dup
  | done (es2 : List (Key × BPTNode))
  | splitChild (es2 : List (Key × BPTNode)) (sep : Key) (r : BPTNode)

mutual

/-- One `BPlusTree::Insert` descent step (`b_plus_tree.cpp:96-152`) plus the
`InsertInParent` completion (`b_plus_tree.cpp:154-196`), as structural
recursion on the subtree.  At a leaf: a non-full leaf takes the in-page
`Insert` (`b_plus_tree.cpp:118-120`), a full leaf takes the vector/split path
(`b_plus_tree.cpp:122-151`), the separator reported upward being the first
key of the new right sibling.  At an internal node: descend into
`Find(key)`'s child; on a child split, a non-full node takes the in-page
`Insert` (`b_plus_tree.cpp:175-176`), a full node splits through its local
vector at `GetMinSize()`, promoting the key at that position — which also
stays in slot 0 of the new right node, where it is never read
(`b_plus_tree.cpp:177-194`). -/
def insertNode (lm im : Nat) (t : BPTNode) (k : Key) (v : Val) : InsRes :=
  match t with
  | .leaf es =>
    if isFull lm es.length then
      match leafSplitInsert lm es (k, v) with
      | none => .dup
      | some (l, r) => .split (.leaf l) ((r.headD (0, 0)).1) (.leaf r)
    else
      match leafInsert es (k, v) with
      | none => .dup
      | some es2 => .done (.leaf es2)
  | .inner es =>
    match insertInner lm im es (childIdx es k) k v with
    | .dup => .dup
    | .done es2 => .done (.inner es2)
    | .splitChild es2 sep r =>
      if isFull im es2.length then
        let arr := innerInsertVec es2 (sep, r)
        let m := internalMin im
        .split (.inner (arr.take m)) ((arr.getD m (0, .leaf [])).1) (.inner (arr.drop m))
      else .done (.inner (innerInsert es2 (sep, r)))

/-- Descent to the child at the routed index, rebuilding the slot list around
the recursive result. -/
def insertInner (lm im : Nat) (es : List (Key × BPTNode)) (i : Nat) (k : Key) (v : Val) :
    InnerRes :=
  match es, i with
  | [], _ => .dup
  | e :: rest, 0 =>
    match insertNode lm im e.2 k v with
    | .dup => .dup
    | .done c2 => .done ((e.1, c2) :: rest)
    | .split l sep r => .splitChild ((e.1, l) :: rest) sep r
  | e :: rest, i + 1 =>
    match insertInner lm im rest i k v with
    | .dup => .dup
    | .done rest2 => .done (e :: rest2)
    | .splitChild rest2 sep r => .splitChild (e :: rest2) sep r

end

/-- The index as seen through its header page: the configured max sizes and
the root (`none` models `root_page_id_ == INVALID_PAGE_ID`). -/
structure BPTree where
  leafMax : Nat
  internalMax : Nat
  root : Option BPTNode

/-- `BPlusTree::Insert` (`b_plus_tree.cpp:75-152`): an empty tree gets a new
root leaf holding the pair (`b_plus_tree.cpp:86-94`, via the in-page
`Insert` on the empty leaf); otherwise the descent runs, a root split builds
the new internal root by two in-page `Insert` calls with the separator key —
`[(sep, left), (sep, right)]`, slot 0 key unused (`b_plus_tree.cpp:159-170`). -/
def bptInsert (t : BPTree) (k : Key) (v : Val) : Bool × BPTree :=
  match t.root with
  | none => (true, { t with root := some (.leaf ((leafInsert [] (k, v)).getD [])) })
  | some rt =>
    match insertNode t.leafMax t.internalMax rt k v with
    | .dup => (false, t)
    | .done rt2 => (true, { t with root := some rt2 })
    | .split l sep r => (true, { t with root := some (.inner [(sep, l), (sep, r)]) })

def bptEmpty (lm im : Nat) : BPTree :=
  ⟨lm, im, none⟩

/-- Insertion of a list of pairs in order. -/
def bptInsertAll (t : BPTree) (ps : List KV) : BPTree :=
  ps.foldl (fun t kv => (bptInsert t kv.1 kv.2).2) t

mutual

/-- The leaves of a subtree in left-to-right order — by the splice argument in
the section header, exactly the `next_page_id_` chain restricted to the
subtree. -/
def leafLists : BPTNode → List (List KV)
  | .leaf es => [es]
  | .inner es => leafListsC es

def leafListsC : List (Key × BPTNode) → List (List KV)
  | [] => []
  | e :: rest => leafLists e.2 ++ leafListsC rest

end

mutual

/-- In-order contents of a subtree. -/
def toListN : BPTNode → List KV
  | .leaf es => es
  | .inner es => toListC es

/-- In-order contents hanging below a child list. -/
def toListC : List (Key × BPTNode) → List KV
  | [] => []
  | e :: rest => toListN e.2 ++ toListC rest

end

/-- The iterator loop `for (it = Begin(); !it.IsEnd(); ++it) *it` over the
leaf chain (`index_iterator.cpp:18-44`): `chain` is the current leaf followed
by the leaves reachable through `next_page_id_`, `idx` the slot index.
`IsEnd` is `next == INVALID && index == size`; dereference reads
`array_[index_]` (out of range modelled as `none`, C++ undefined behaviour);
`operator++` jumps to the next leaf from slot `size - 1` (computed in `int`
arithmetic) and advances the slot otherwise. -/
def iterRun (chain : List (List KV)) (idx : Nat) : Option (List KV) :=
  match chain with
  | [] => some []
  | c :: rest =>
    if rest.isEmpty ∧ idx = c.length then some []
    else
      match hfind : List.get? c idx with
      | none => none
      | some kv =>
        if ((idx : Int) = (c.length : Int) - 1) ∧ ¬ rest.isEmpty then
          (iterRun rest 0).map (fun l => kv :: l)
        else
          (iterRun (c :: rest) (idx + 1)).map (fun l => kv :: l)
termination_by (chain.length, (chain.headD []).length - idx)
decreasing_by
  · simp_wf
    omega
  · simp_wf
    have : idx < c.length := by
      by_contra hge
      rw [List.get?_eq_none.mpr (by omega)] at hfind
      exact Option.noConfusion hfind
    omega

/-- Full iteration of the tree: `Begin()` crabs down `ValueAt(0)` to the
leftmost leaf at slot 0 (`b_plus_tree.cpp:359-371`); an empty tree makes
`Begin()` fetch page `INVALID_PAGE_ID` (`root_id` is `-1` at
`b_plus_tree.cpp:362-363`), which is undefined — modelled as `none`. -/
def iterateTree (t : BPTree) : Option (List KV) :=
  match t.root with
  | none => none
  | some rt => iterRun (leafLists rt) 0

/-- Insertion into a (strictly) key-sorted list, used to state what the tree
computes. -/
def sInsert (kv : KV) : List KV → List KV
  | [] => [kv]
  | e :: rest => if kv.1 < e.1 then kv :: e :: rest else e :: sInsert kv rest

/-- `sorted(K)`: insertion sort of the pairs by key, folding the pairs in
insertion order. -/
def sortKey (ps : List KV) : List KV :=
  ps.foldl (fun acc kv => sInsert kv acc) []

def keysOf (l : List KV) : List Key :=
  l.map Prod.fst

/-- Strict ascending key order. -/
def chainSorted (l : List KV) : Prop :=
  l.Pairwise (fun a b => a.1 < b.1)

/-- Interval constraint: inclusive optional lower bound, exclusive optional
upper bound. -/
def inB (lo hi : Option Key) (k : Key) : Prop :=
  (∀ l, lo = some l → l ≤ k) ∧ (∀ h, hi = some h → k < h)

/-- Strict version used for separators produced by splits. -/
def inBs (lo hi : Option Key) (k : Key) : Prop :=
  (∀ l, lo = some l → l < k) ∧ (∀ h, hi = some h → k < h)

mutual

/-- Well-formedness of a subtree within a key interval: leaves are nonempty,
within the size bound, strictly sorted, and inside the interval; internal
nodes are nonempty, within the size bound, and their children partition the
interval along the separator chain. -/
def WFNode (lm im : Nat) : Option Key → Option Key → BPTNode → Prop
  | lo, hi, .leaf es =>
    es ≠ [] ∧ es.length ≤ lm ∧ chainSorted es ∧ ∀ kv ∈ es, inB lo hi kv.1
  | lo, hi, .inner es =>
    1 ≤ es.length ∧ es.length ≤ im ∧ WFChildren lm im lo hi es

/-- The separator chain: child `i` covers `[kᵢ, kᵢ₊₁)` (the slot-0 key is
unused, the first child starts at the node's own lower bound). -/
def WFChildren (lm im : Nat) : Option Key → Option Key → List (Key × BPTNode) → Prop
  | _, _, [] => True
  | lo, hi, [e] => WFNode lm im lo hi e.2
  | lo, hi, e :: e2 :: rest =>
    WFNode lm im lo (some e2.1) e.2 ∧ WFChildren lm im (some e2.1) hi (e2 :: rest)

end

/-- Tree-level well-formedness. -/
def WFTree (t : BPTree) : Prop :=
  match t.root with
  | none => True
  | some rt => WFNode t.leafMax t.internalMax none none rt

/-- Tree-level contents. -/
def treeContents (t : BPTree) : List KV :=
  match t.root with
  | none => []
  | some rt => toListN rt

/-! ### Sorted-insertion lemmas -/

theorem key_lt_of_not_lt_of_ne {a b : Key} (h : ¬ a < b) (h2 : ¬ a = b) : b < a :=
  lt_of_le_of_ne (not_lt.mp h) (fun hc => h2 hc.symm)

theorem key_not_lt_of_lt {a b : Key} (h : a < b) : ¬ b < a :=
  not_lt.mpr (le_of_lt h)

theorem sInsert_perm (kv : KV) (l : List KV) : (sInsert kv l).Perm (kv :: l) := by
  induction l with
  | nil => exact List.Perm.refl _
  | cons e rest ih =>
    by_cases h : kv.1 < e.1
    · simp only [sInsert, h, if_true]
      exact List.Perm.refl _
    · simp only [sInsert, h, if_false]
      exact (ih.cons e).trans (List.Perm.swap kv e rest)

theorem sInsert_mem (kv x : KV) (l : List KV) :
    x ∈ sInsert kv l ↔ x = kv ∨ x ∈ l := by
  rw [(sInsert_perm kv l).mem_iff, List.mem_cons]

theorem sInsert_key_mem (kv : KV) (l : List KV) (q : Key) :
    q ∈ keysOf (sInsert kv l) ↔ q = kv.1 ∨ q ∈ keysOf l := by
  rw [keysOf, ((sInsert_perm kv l).map Prod.fst).mem_iff, List.map_cons, List.mem_cons]
  rfl

theorem sInsert_sorted (kv : KV) (l : List KV) (hs : chainSorted l)
    (hn : kv.1 ∉ keysOf l) : chainSorted (sInsert kv l) := by
  induction l with
  | nil => simp [sInsert, chainSorted]
  | cons e rest ih =>
    rw [keysOf, List.map_cons, List.mem_cons] at hn
    push_neg at hn
    obtain ⟨hne, hnrest⟩ := hn
    rw [chainSorted, List.pairwise_cons] at hs
    obtain ⟨helt, hrest⟩ := hs
    by_cases h : kv.1 < e.1
    · simp only [sInsert, h, if_true]
      rw [chainSorted, List.pairwise_cons]
      refine ⟨?_, List.pairwise_cons.mpr ⟨helt, hrest⟩⟩
      intro x hx
      rcases List.mem_cons.mp hx with hx | hx
      · rw [hx]; exact h
      · exact h.trans (helt x hx)
    · simp only [sInsert, h, if_false]
      rw [chainSorted, List.pairwise_cons]
      refine ⟨?_, ih hrest hnrest⟩
      intro x hx
      rcases (sInsert_mem kv x rest).mp hx with hx | hx
      · rw [hx]
        exact key_lt_of_not_lt_of_ne h hne
      · exact helt x hx

theorem sInsert_all_le (kv : KV) (l : List KV) (h : ∀ x ∈ l, ¬ kv.1 < x.1) :
    sInsert kv l = l ++ [kv] := by
  induction l with
  | nil => rfl
  | cons e rest ih =>
    simp only [sInsert, h e (List.mem_cons_self e rest), if_false]
    rw [ih (fun x hx => h x (List.mem_cons_of_mem e hx)), List.cons_append]

theorem sInsert_append_right (kv : KV) (l1 l2 : List KV)
    (h : ∀ x ∈ l1, ¬ kv.1 < x.1) :
    sInsert kv (l1 ++ l2) = l1 ++ sInsert kv l2 := by
  induction l1 with
  | nil => rfl
  | cons e rest ih =>
    rw [List.cons_append]
    simp only [sInsert, h e (List.mem_cons_self e rest), if_false]
    rw [ih (fun x hx => h x (List.mem_cons_of_mem e hx)), List.cons_append]

theorem sInsert_append_left (kv : KV) (l1 l2 : List KV)
    (h : ∀ x ∈ l2, kv.1 < x.1) :
    sInsert kv (l1 ++ l2) = sInsert kv l1 ++ l2 := by
  induction l1 with
  | nil =>
    cases l2 with
    | nil => rfl
    | cons e rest =>
      simp only [List.nil_append, sInsert, h e (List.mem_cons_self e rest), if_true]
      rfl
  | cons e rest ih =>
    rw [List.cons_append]
    by_cases hk : kv.1 < e.1
    · simp only [sInsert, hk, if_true, List.cons_append]
    · simp only [sInsert, hk, if_false, ih, List.cons_append]

/-! ### Leaf-page insertion vs sorted insertion -/

theorem leafInsertRev_spec (kv : KV) (rs : List KV)
    (hdesc : rs.Pairwise (fun a b => b.1 < a.1)) :
    (kv.1 ∈ keysOf rs → leafInsertRev kv rs = none) ∧
      (kv.1 ∉ keysOf rs →
        ∃ lr, leafInsertRev kv rs = some lr ∧ lr.reverse = sInsert kv rs.reverse) := by
  induction rs with
  | nil =>
    refine ⟨fun hmem => absurd hmem (by simp [keysOf]), fun _ => ⟨[kv], rfl, rfl⟩⟩
  | cons e rest ih =>
    rw [List.pairwise_cons] at hdesc
    obtain ⟨hegt, hrest⟩ := hdesc
    obtain ⟨ihm, ihn⟩ := ih hrest
    constructor
    · intro hmem
      rw [keysOf, List.map_cons, List.mem_cons] at hmem
      have hnlt : ¬ e.1 < kv.1 := by
        rcases hmem with hmem | hmem
        · rw [hmem]
          exact lt_irrefl e.1
        · obtain ⟨x, hx, hxk⟩ := List.mem_map.mp hmem
          have hxe := hegt x hx
          rw [← hxk]
          exact key_not_lt_of_lt hxe
      rw [show leafInsertRev kv (e :: rest) =
          (if e.1 < kv.1 then some (kv :: e :: rest)
            else if kv.1 = e.1 then none
            else (leafInsertRev kv rest).map (fun l => e :: l)) from rfl,
        if_neg hnlt]
      by_cases heq : kv.1 = e.1
      · rw [if_pos heq]
      · rw [if_neg heq]
        have hmr : kv.1 ∈ keysOf rest := by
          rcases hmem with hmem | hmem
          · exact absurd hmem heq
          · exact hmem
        rw [ihm hmr]
        rfl
    · intro hnm
      rw [keysOf, List.map_cons, List.mem_cons] at hnm
      push_neg at hnm
      obtain ⟨hne, hnrest⟩ := hnm
      by_cases h : e.1 < kv.1
      · refine ⟨kv :: e :: rest, by simp [leafInsertRev, h], ?_⟩
        have hall : ∀ x ∈ rest.reverse ++ [e], ¬ kv.1 < x.1 := by
          intro x hx
          rcases List.mem_append.mp hx with hx | hx
          · exact key_not_lt_of_lt (lt_trans (hegt x (List.mem_reverse.mp hx)) h)
          · have hxe : x = e := by simpa using hx
            rw [hxe]
            exact key_not_lt_of_lt h
        rw [List.reverse_cons, List.reverse_cons, sInsert_all_le kv _ hall]
      · have hlt : kv.1 < e.1 := key_lt_of_not_lt_of_ne h (fun hc => hne hc.symm)
        obtain ⟨lr, hlr, hrev⟩ := ihn hnrest
        refine ⟨e :: lr, ?_, ?_⟩
        · rw [show leafInsertRev kv (e :: rest) =
              (if e.1 < kv.1 then some (kv :: e :: rest)
                else if kv.1 = e.1 then none
                else (leafInsertRev kv rest).map (fun l => e :: l)) from rfl,
            if_neg h, if_neg hne, hlr]
          rfl
        · rw [List.reverse_cons, List.reverse_cons, hrev,
            sInsert_append_left kv _ [e] (by intro x hx; simp at hx; rw [hx]; exact hlt)]

/-- The leaf-page `Insert` computes exactly the sorted insertion on a sorted
page, and rejects exactly the duplicate keys. -/
theorem leafInsert_spec (es : List KV) (kv : KV) (hs : chainSorted es) :
    (kv.1 ∈ keysOf es → leafInsert es kv = none) ∧
      (kv.1 ∉ keysOf es → leafInsert es kv = some (sInsert kv es)) := by
  have hdesc : es.reverse.Pairwise (fun a b => b.1 < a.1) :=
    List.pairwise_reverse.mpr hs
  have hkeys : ∀ q, q ∈ keysOf es.reverse ↔ q ∈ keysOf es := by
    intro q
    simp [keysOf]
  obtain ⟨hm, hn⟩ := leafInsertRev_spec kv es.reverse hdesc
  constructor
  · intro hmem
    rw [leafInsert, hm ((hkeys kv.1).mpr hmem)]
    rfl
  · intro hnm
    obtain ⟨lr, hlr, hrev⟩ := hn (fun hc => hnm ((hkeys kv.1).mp hc))
    rw [leafInsert, hlr]
    rw [List.reverse_reverse] at hrev
    show some lr.reverse = some (sInsert kv es)
    rw [hrev]

/-! ### Full-leaf split vs sorted insertion -/

theorem insAt_ubPos (es : List KV) (k : Key) (v : Val) :
    insAt es (ubPos es k) (k, v) = sInsert (k, v) es := by
  induction es with
  | nil => rfl
  | cons e rest ih =>
    by_cases h : k < e.1
    · have hu : ubPos (e :: rest) k = 0 := by
        simp [ubPos, List.takeWhile_cons, h]
      rw [hu]
      show (k, v) :: e :: rest = sInsert (k, v) (e :: rest)
      rw [show sInsert (k, v) (e :: rest) =
          (if (k, v).1 < e.1 then (k, v) :: e :: rest else e :: sInsert (k, v) rest) from rfl,
        if_pos h]
    · have hle := not_lt.mp h
      have hu : ubPos (e :: rest) k = ubPos rest k + 1 := by
        simp [ubPos, List.takeWhile_cons, h, hle]
      rw [hu,
        show insAt (e :: rest) (ubPos rest k + 1) (k, v) =
          e :: insAt rest (ubPos rest k) (k, v) from rfl,
        show sInsert (k, v) (e :: rest) =
          (if (k, v).1 < e.1 then (k, v) :: e :: rest else e :: sInsert (k, v) rest) from rfl,
        if_neg h, ih]

theorem leafSplitInsert_dup (lm : Nat) (es : List KV) (k : Key) (v : Val)
    (hs : chainSorted es) (hmem : k ∈ keysOf es) :
    leafSplitInsert lm es (k, v) = none := by
  have hkey : ubPos es k ≠ 0 ∧ (es.getD (ubPos es k - 1) (0, 0)).1 = k := by
    clear v
    induction es with
    | nil => exact absurd hmem (by simp [keysOf])
    | cons e rest ih =>
      rw [chainSorted, List.pairwise_cons] at hs
      obtain ⟨hegt, hrest⟩ := hs
      rw [keysOf, List.map_cons, List.mem_cons] at hmem
      by_cases heq : k = e.1
      · have hrest0 : ((rest.takeWhile fun x => ¬ (k < x.1))).length = 0 := by
          cases rest with
          | nil => rfl
          | cons x xs =>
            have hkx : k < x.1 := by
              rw [heq]
              exact hegt x (List.mem_cons_self x xs)
            simp [List.takeWhile_cons, hkx]
        have hub : ubPos (e :: rest) k = 1 := by
          rw [ubPos, List.takeWhile_cons, if_pos (by simp [heq])]
          simp only [List.length_cons]
          omega
        refine ⟨by rw [hub]; exact Nat.one_ne_zero, ?_⟩
        rw [hub]
        exact heq.symm
      · have hmr : k ∈ keysOf rest := by
          rcases hmem with hmem | hmem
          · exact absurd hmem heq
          · exact hmem
        have hgt : e.1 < k := by
          obtain ⟨x, hx, hxk⟩ := List.mem_map.mp hmr
          exact hxk ▸ hegt x hx
        obtain ⟨ih1, ih2⟩ := ih hrest hmr
        have hnlt : ¬ k < e.1 := key_not_lt_of_lt hgt
        have hshape : ubPos (e :: rest) k = ubPos rest k + 1 := by
          simp [ubPos, List.takeWhile_cons, hnlt, not_lt.mp hnlt]
        refine ⟨by omega, ?_⟩
        rw [hshape]
        have : ubPos rest k + 1 - 1 = ubPos rest k := by omega
        rw [this]
        have hpos : ubPos rest k = (ubPos rest k - 1) + 1 := by omega
        rw [show (e :: rest).getD (ubPos rest k) (0, 0) = rest.getD (ubPos rest k - 1) (0, 0) by
          rw [hpos]; rfl]
        exact ih2
  simp only [leafSplitInsert]
  rw [if_neg (fun hc => hc.elim hkey.1 (fun hne2 => hne2 hkey.2))]

theorem leafSplitInsert_notmem (lm : Nat) (es : List KV) (k : Key) (v : Val)
    (hnm : k ∉ keysOf es) :
    leafSplitInsert lm es (k, v) =
      some ((sInsert (k, v) es).take ((lm + 1) / 2), (sInsert (k, v) es).drop ((lm + 1) / 2)) := by
  have hcase : ubPos es k = 0 ∨ (es.getD (ubPos es k - 1) (0, 0)).1 ≠ k := by
    by_cases h0 : ubPos es k = 0
    · exact Or.inl h0
    · refine Or.inr ?_
      intro heq
      refine hnm ?_
      have hm := ubPos_getD_mem es k h0
      exact heq ▸ List.mem_map_of_mem Prod.fst hm
  simp only [leafSplitInsert, if_pos hcase, insAt_ubPos]

/-! ### Internal-page insertion placement -/

theorem innerInsertRev_allGt (kv : Key × BPTNode) (rs : List (Key × BPTNode))
    (h : ∀ e ∈ rs, kv.1 < e.1) : innerInsertRev kv rs = rs ++ [kv] := by
  induction rs with
  | nil => rfl
  | cons e rest ih =>
    simp only [innerInsertRev, h e (List.mem_cons_self e rest), if_true]
    rw [ih (fun x hx => h x (List.mem_cons_of_mem e hx)), List.cons_append]

/-- The right-to-left scan keeps every larger separator in place and stops
right after the first smaller one. -/
theorem innerInsertRev_stop (kv c : Key × BPTNode) (tail gt : List (Key × BPTNode))
    (hgt : ∀ e ∈ gt, kv.1 < e.1) (hlt : c.1 < kv.1) :
    innerInsertRev kv (gt ++ c :: tail) = gt ++ kv :: c :: tail := by
  induction gt with
  | nil =>
    rw [List.nil_append, List.nil_append]
    simp only [innerInsertRev, if_neg (key_not_lt_of_lt hlt)]
  | cons x xs ih =>
    rw [List.cons_append]
    simp only [innerInsertRev, hgt x (List.mem_cons_self x xs), if_true]
    rw [ih (fun e he => hgt e (List.mem_cons_of_mem x he)), List.cons_append]

/-- The key-scan `Insert` of the internal page places the separator directly
after the left half of the split child whenever every separator left of the
insertion point is smaller and every separator right of it is larger. -/
theorem innerInsert_middle (pre : List (Key × BPTNode)) (c : Key × BPTNode)
    (post : List (Key × BPTNode)) (kv : Key × BPTNode)
    (hpre : ∀ x ∈ pre.drop 1, x.1 < kv.1) (hc : pre ≠ [] → c.1 < kv.1)
    (hpost : ∀ x ∈ post, kv.1 < x.1) :
    innerInsert (pre ++ c :: post) kv = pre ++ c :: kv :: post := by
  cases pre with
  | nil =>
    simp only [List.nil_append, innerInsert]
    rw [innerInsertRev_allGt kv post.reverse
      (fun x hx => hpost x (List.mem_reverse.mp hx))]
    simp
  | cons p0 pre2 =>
    have hc2 : c.1 < kv.1 := hc (by simp)
    simp only [List.cons_append, innerInsert]
    have hrev : (pre2 ++ c :: post).reverse = post.reverse ++ c :: pre2.reverse := by
      simp
    rw [hrev]
    rw [innerInsertRev_stop kv c pre2.reverse post.reverse
      (fun x hx => hpost x (List.mem_reverse.mp hx)) hc2]
    simp

theorem takeWhile_append_all {α : Type} (p : α → Bool) (l1 l2 : List α)
    (h : ∀ x ∈ l1, p x = true) :
    (l1 ++ l2).takeWhile p = l1 ++ l2.takeWhile p := by
  induction l1 with
  | nil => rfl
  | cons a l ih =>
    rw [List.cons_append, List.takeWhile_cons, if_pos (h a (List.mem_cons_self a l)),
      ih (fun x hx => h x (List.mem_cons_of_mem a hx)), List.cons_append]

/-- The `std::upper_bound` vector insertion of `InsertInParent` places the
separator at the same position. -/
theorem innerInsertVec_middle (pre : List (Key × BPTNode)) (c : Key × BPTNode)
    (post : List (Key × BPTNode)) (kv : Key × BPTNode)
    (hpre : ∀ x ∈ pre.drop 1, x.1 < kv.1) (hc : pre ≠ [] → c.1 < kv.1)
    (hpost : ∀ x ∈ post, kv.1 < x.1) :
    innerInsertVec (pre ++ c :: post) kv = pre ++ c :: kv :: post := by
  have hpostnil : post.takeWhile (fun e => ¬ (kv.1 < e.1)) = [] := by
    cases post with
    | nil => rfl
    | cons q qs =>
      have hq := hpost q (List.mem_cons_self q qs)
      simp [List.takeWhile_cons, hq]
  have hpos : innerUbPos (pre ++ c :: post) kv.1 = pre.length + 1 := by
    cases pre with
    | nil =>
      simp only [List.nil_append, innerUbPos, List.drop_one, List.tail_cons, hpostnil]
      rfl
    | cons p0 pre2 =>
      have hdrop : ((p0 :: pre2) ++ c :: post).drop 1 = pre2 ++ c :: post := by
        simp
      rw [innerUbPos, hdrop]
      have h1 : ∀ x ∈ pre2, (fun (e : Key × BPTNode) => decide (¬ (kv.1 < e.1))) x = true := by
        intro x hx
        have hx2 := hpre x (by simpa using hx)
        simp only [decide_eq_true_eq]
        exact key_not_lt_of_lt hx2
      rw [takeWhile_append_all _ pre2 (c :: post) h1, List.takeWhile_cons,
        if_pos (by
          have hc2 := hc (by simp)
          simp only [decide_eq_true_eq]
          exact key_not_lt_of_lt hc2), hpostnil]
      simp
      omega
  have hassoc : pre ++ c :: post = (pre ++ [c]) ++ post := by simp
  have hlen : pre.length + 1 = (pre ++ [c]).length := by simp
  rw [innerInsertVec, hpos, insAt, hassoc, hlen, List.take_left, List.drop_left]
  simp

/-! ### Structural facts about well-formed subtrees -/

theorem inB_relax_hi {lo hi : Option Key} {b k : Key}
    (h : inB lo (some b) k) (hbh : ∀ u, hi = some u → b < u) : inB lo hi k :=
  ⟨h.1, fun u hu => lt_trans (h.2 b rfl) (hbh u hu)⟩

theorem inB_relax_lo {lo hi : Option Key} {b k : Key}
    (h : inB (some b) hi k) (hlb : ∀ u, lo = some u → u ≤ b) : inB lo hi k :=
  ⟨fun u hu => le_trans (hlb u hu) (h.1 b rfl), h.2⟩

theorem toListC_append (l1 l2 : List (Key × BPTNode)) :
    toListC (l1 ++ l2) = toListC l1 ++ toListC l2 := by
  induction l1 with
  | nil => rfl
  | cons e rest ih =>
    rw [List.cons_append, toListC, toListC, ih, List.append_assoc]

theorem keysOf_append (l1 l2 : List KV) :
    keysOf (l1 ++ l2) = keysOf l1 ++ keysOf l2 :=
  List.map_append Prod.fst l1 l2

mutual

/-- The contents of a well-formed subtree are nonempty, strictly key-sorted,
and inside the interval. -/
theorem toListN_props (lm im : Nat) (lo hi : Option Key) (t : BPTNode)
    (h : WFNode lm im lo hi t) :
    toListN t ≠ [] ∧ chainSorted (toListN t) ∧ ∀ x ∈ toListN t, inB lo hi x.1 :=
  match t with
  | .leaf es => by
    obtain ⟨hne, _, hsort, hbd⟩ := h
    exact ⟨hne, hsort, hbd⟩
  | .inner es => by
    obtain ⟨h1, _, hc⟩ := h
    have hne : es ≠ [] := by
      intro hc2
      rw [hc2] at h1
      exact absurd h1 (by simp)
    exact toListC_props lm im lo hi es hne hc

theorem toListC_props (lm im : Nat) (lo hi : Option Key) (es : List (Key × BPTNode))
    (hne : es ≠ []) (h : WFChildren lm im lo hi es) :
    toListC es ≠ [] ∧ chainSorted (toListC es) ∧ ∀ x ∈ toListC es, inB lo hi x.1 :=
  match es with
  | [] => absurd rfl hne
  | [e] => by
    rw [WFChildren] at h
    obtain ⟨hn, hs, hb⟩ := toListN_props lm im lo hi e.2 h
    rw [toListC, toListC, List.append_nil]
    exact ⟨hn, hs, hb⟩
  | e :: e2 :: rest => by
    rw [WFChildren] at h
    obtain ⟨he, hrest⟩ := h
    obtain ⟨hn1, hs1, hb1⟩ := toListN_props lm im lo (some e2.1) e.2 he
    obtain ⟨hn2, hs2, hb2⟩ := toListC_props lm im (some e2.1) hi (e2 :: rest) (by simp) hrest
    obtain ⟨y, hy⟩ := List.exists_mem_of_ne_nil _ hn2
    obtain ⟨z, hz⟩ := List.exists_mem_of_ne_nil _ hn1
    rw [toListC]
    refine ⟨by simp [hn1], ?_, ?_⟩
    · rw [chainSorted, List.pairwise_append]
      refine ⟨hs1, hs2, ?_⟩
      intro a ha b hb
      exact lt_of_lt_of_le ((hb1 a ha).2 e2.1 rfl) ((hb2 b hb).1 e2.1 rfl)
    · intro x hx
      rcases List.mem_append.mp hx with hx | hx
      · exact inB_relax_hi (hb1 x hx)
          (fun u hu => lt_of_le_of_lt ((hb2 y hy).1 e2.1 rfl) ((hb2 y hy).2 u hu))
      · exact inB_relax_lo (hb2 x hx)
          (fun u hu => le_trans ((hb1 z hz).1 u hu) (le_of_lt ((hb1 z hz).2 e2.1 rfl)))

end

/-- Default entry for `std::vector` reads that are in range whenever the
source reaches them. -/
def junkC : Key × BPTNode :=
  ((0 : Key), BPTNode.leaf [])

/-- Splitting a well-formed separator chain at any interior position yields
two well-formed chains around the key at the split position, and that key
lies strictly inside the interval. -/
theorem wfChildren_split (lm im : Nat) (lo hi : Option Key) (es : List (Key × BPTNode))
    (m : Nat) (h : WFChildren lm im lo hi es) (hm1 : 1 ≤ m) (hmlt : m < es.length) :
    WFChildren lm im lo (some ((es.getD m junkC).1)) (es.take m) ∧
      WFChildren lm im (some ((es.getD m junkC).1)) hi (es.drop m) ∧
      inBs lo hi ((es.getD m junkC).1) := by
  induction es generalizing lo m with
  | nil => simp at hmlt
  | cons e rest ih =>
    cases rest with
    | nil =>
      simp at hmlt
      omega
    | cons e2 rest2 =>
      rw [WFChildren] at h
      obtain ⟨he, hrest⟩ := h
      obtain ⟨hn1, hs1, hb1⟩ := toListN_props lm im lo (some e2.1) e.2 he
      obtain ⟨z, hz⟩ := List.exists_mem_of_ne_nil _ hn1
      have hlo_lt : ∀ u, lo = some u → u < e2.1 :=
        fun u hu => lt_of_le_of_lt ((hb1 z hz).1 u hu) ((hb1 z hz).2 e2.1 rfl)
      match m, hm1 with
      | 1, _ =>
        obtain ⟨hn2, hs2, hb2⟩ :=
          toListC_props lm im (some e2.1) hi (e2 :: rest2) (by simp) hrest
        obtain ⟨y, hy⟩ := List.exists_mem_of_ne_nil _ hn2
        refine ⟨?_, ?_, ?_⟩
        · rw [show (e :: e2 :: rest2).take 1 = [e] from rfl,
            show (e :: e2 :: rest2).getD 1 junkC = e2 from rfl]
          exact he
        · rw [show (e :: e2 :: rest2).drop 1 = e2 :: rest2 from rfl]
          exact hrest
        · rw [show (e :: e2 :: rest2).getD 1 junkC = e2 from rfl]
          exact ⟨hlo_lt,
            fun u hu => lt_of_le_of_lt ((hb2 y hy).1 e2.1 rfl) ((hb2 y hy).2 u hu)⟩
      | n + 2, _ =>
        have hlen : n + 1 < (e2 :: rest2).length := by
          simp only [List.length_cons] at hmlt ⊢
          omega
        obtain ⟨ih1, ih2, ih3⟩ := ih (some e2.1) (n + 1) hrest (by omega) hlen
        have hget : (e :: e2 :: rest2).getD (n + 2) junkC =
            (e2 :: rest2).getD (n + 1) junkC := rfl
        refine ⟨?_, ?_, ?_⟩
        · rw [hget, show (e :: e2 :: rest2).take (n + 2) = e :: (e2 :: rest2).take (n + 1) from rfl]
          have htk : (e2 :: rest2).take (n + 1) = e2 :: rest2.take n := rfl
          rw [htk] at ih1 ⊢
          rw [WFChildren]
          exact ⟨he, ih1⟩
        · rw [hget]
          exact ih2
        · rw [hget]
          exact ⟨fun u hu => lt_trans (hlo_lt u hu) (ih3.1 e2.1 rfl), ih3.2⟩

/-! ### Routing and chain-ordering helpers -/

theorem childIdx_single (e : Key × BPTNode) (k : Key) : childIdx [e] k = 0 := rfl

theorem childIdx_lt (e e2 : Key × BPTNode) (rest : List (Key × BPTNode)) (k : Key)
    (h : k < e2.1) : childIdx (e :: e2 :: rest) k = 0 := by
  simp [childIdx, List.takeWhile_cons, h]

theorem childIdx_ge (e e2 : Key × BPTNode) (rest : List (Key × BPTNode)) (k : Key)
    (h : ¬ k < e2.1) : childIdx (e :: e2 :: rest) k = childIdx (e2 :: rest) k + 1 := by
  have h' : e2.1 ≤ k := not_lt.mp h
  simp [childIdx, List.takeWhile_cons, h, h']

/-- Along a well-formed separator chain, every separator key from slot 1 on is
strictly above the chain lower bound. -/
theorem wfChildren_tail_gt (lm im : Nat) (hi : Option Key) (b : Key)
    (es : List (Key × BPTNode)) (h : WFChildren lm im (some b) hi es) :
    ∀ x ∈ es.drop 1, b < x.1 := by
  induction es generalizing b with
  | nil => intro x hx; simp at hx
  | cons e rest ih =>
    intro x hx
    rw [List.drop_one, List.tail_cons] at hx
    cases rest with
    | nil => simp at hx
    | cons e2 rest2 =>
      rw [WFChildren] at h
      obtain ⟨he, hrest⟩ := h
      obtain ⟨hn1, _, hb1⟩ := toListN_props lm im (some b) (some e2.1) e.2 he
      obtain ⟨z, hz⟩ := List.exists_mem_of_ne_nil _ hn1
      have hbe2 : b < e2.1 := lt_of_le_of_lt ((hb1 z hz).1 b rfl) ((hb1 z hz).2 e2.1 rfl)
      rcases List.mem_cons.mp hx with hx | hx
      · rw [hx]; exact hbe2
      · exact lt_trans hbe2 (ih e2.1 hrest x
          (show x ∈ (e2 :: rest2).drop 1 by rw [List.drop_one, List.tail_cons]; exact hx))

theorem toListC_single (e : Key × BPTNode) : toListC [e] = toListN e.2 := by
  rw [toListC, toListC, List.append_nil]

theorem map_fst_cons_destruct {rest2 : List (Key × BPTNode)} {b : Key} {ks : List Key}
    (h : rest2.map Prod.fst = b :: ks) :
    ∃ f tail, rest2 = f :: tail ∧ f.1 = b ∧ tail.map Prod.fst = ks := by
  cases rest2 with
  | nil => simp at h
  | cons f tail =>
    rw [List.map_cons] at h
    injection h with h1 h2
    exact ⟨f, tail, rfl, h1, h2⟩

theorem sInsert_length (kv : KV) (l : List KV) :
    (sInsert kv l).length = l.length + 1 :=
  (sInsert_perm kv l).length_eq

theorem sInsert_ne_nil (kv : KV) (l : List KV) : sInsert kv l ≠ [] := by
  intro hc
  have := sInsert_length kv l
  rw [hc] at this
  simp at this

theorem inB_none_none (k : Key) : inB none none k :=
  ⟨fun _ hu => Option.noConfusion hu, fun _ hu => Option.noConfusion hu⟩

theorem toListC_pair (a b : Key × BPTNode) : toListC [a, b] = toListN a.2 ++ toListN b.2 := by
  rw [toListC, toListC_single]

/-! ### The insertion descent: contents and well-formedness -/

mutual

/-- One descent of `Insert` below a subtree: a duplicate outcome happens only
when the key is present; a completed or split outcome happens only when it is
absent and then produces exactly the sorted insertion of the pair, preserving
well-formedness on the reported intervals, the split separator lying strictly
inside the subtree interval. -/
theorem insertNode_spec (lm im : Nat) (lo hi : Option Key) (t : BPTNode) (k : Key) (v : Val)
    (hlm : 1 ≤ lm) (him : 2 ≤ im) (hwf : WFNode lm im lo hi t) (hk : inB lo hi k) :
    (insertNode lm im t k v = .dup → k ∈ keysOf (toListN t)) ∧
      (∀ n2, insertNode lm im t k v = .done n2 →
        k ∉ keysOf (toListN t) ∧ WFNode lm im lo hi n2 ∧
          toListN n2 = sInsert (k, v) (toListN t)) ∧
      (∀ l sep r, insertNode lm im t k v = .split l sep r →
        k ∉ keysOf (toListN t) ∧ WFNode lm im lo (some sep) l ∧
          WFNode lm im (some sep) hi r ∧ inBs lo hi sep ∧
          toListN l ++ toListN r = sInsert (k, v) (toListN t)) :=
  match t with
  | .leaf es => by
    obtain ⟨hne, hlenle, hsort, hbd⟩ := hwf
    simp only [toListN]
    by_cases hfull : isFull lm es.length = true
    · have heslen : es.length = lm := le_antisymm hlenle (by simpa [isFull] using hfull)
      by_cases hmem : k ∈ keysOf es
      · have hstep : insertNode lm im (.leaf es) k v = .dup := by
          rw [insertNode, if_pos hfull, leafSplitInsert_dup lm es k v hsort hmem]
        rw [hstep]
        exact ⟨fun _ => hmem, fun n2 h => InsRes.noConfusion h,
          fun l sep r h => InsRes.noConfusion h⟩
      · have hstep : insertNode lm im (.leaf es) k v =
            .split (.leaf ((sInsert (k, v) es).take ((lm + 1) / 2)))
              ((((sInsert (k, v) es).drop ((lm + 1) / 2)).headD (0, 0)).1)
              (.leaf ((sInsert (k, v) es).drop ((lm + 1) / 2))) := by
          rw [insertNode, if_pos hfull, leafSplitInsert_notmem lm es k v hmem]
        have hslen : (sInsert (k, v) es).length = lm + 1 := by
          rw [sInsert_length, heslen]
        have hssort : chainSorted (sInsert (k, v) es) := sInsert_sorted (k, v) es hsort hmem
        have hsbd : ∀ x ∈ sInsert (k, v) es, inB lo hi x.1 := by
          intro x hx
          rcases (sInsert_mem (k, v) x es).mp hx with hx | hx
          · rw [hx]; exact hk
          · exact hbd x hx
        have htlen : ((sInsert (k, v) es).take ((lm + 1) / 2)).length = (lm + 1) / 2 := by
          rw [List.length_take, hslen]
          omega
        have hdlen : ((sInsert (k, v) es).drop ((lm + 1) / 2)).length =
            lm + 1 - (lm + 1) / 2 := by
          rw [List.length_drop, hslen]
        have hsplitp := hssort
        rw [chainSorted, show sInsert (k, v) es =
            (sInsert (k, v) es).take ((lm + 1) / 2) ++ (sInsert (k, v) es).drop ((lm + 1) / 2)
          from (List.take_append_drop _ _).symm, List.pairwise_append] at hsplitp
        obtain ⟨hsortT, hsortD, hcross⟩ := hsplitp
        cases hd : (sInsert (k, v) es).drop ((lm + 1) / 2) with
        | nil =>
          exfalso
          rw [hd] at hdlen
          simp at hdlen
          omega
        | cons d0 dtail =>
          have hd0mem : d0 ∈ (sInsert (k, v) es).drop ((lm + 1) / 2) := by
            rw [hd]
            exact List.mem_cons_self d0 dtail
          rw [hstep, hd]
          simp only [List.headD_cons]
          refine ⟨fun h => InsRes.noConfusion h, fun n2 h => InsRes.noConfusion h,
            fun l sep r h => ?_⟩
          injection h with h1 h2 h3
          subst h1
          subst h2
          subst h3
          refine ⟨hmem, ?_, ?_, ?_, ?_⟩
          · rw [WFNode]
            refine ⟨?_, ?_, hsortT, ?_⟩
            · intro hcn
              rw [hcn] at htlen
              simp at htlen
              omega
            · rw [htlen]
              omega
            · intro x hx
              refine ⟨(hsbd x (List.mem_of_mem_take hx)).1, fun u hu => ?_⟩
              exact (Option.some.inj hu) ▸ hcross x hx d0 hd0mem
          · rw [WFNode]
            have hsortD2 := hsortD
            rw [hd, List.pairwise_cons] at hsortD2
            refine ⟨List.cons_ne_nil d0 dtail, ?_, by rw [← hd]; exact hsortD, ?_⟩
            · have : (d0 :: dtail).length = lm + 1 - (lm + 1) / 2 := by
                rw [← hd]
                exact hdlen
              rw [this]
              omega
            · intro x hx
              refine ⟨fun u hu => ?_, (hsbd x (List.mem_of_mem_drop (hd.symm ▸ hx))).2⟩
              rcases List.mem_cons.mp hx with hx | hx
              · rw [hx]
                exact le_of_eq (Option.some.inj hu).symm
              · exact le_of_lt ((Option.some.inj hu) ▸ hsortD2.1 x hx)
          · have hTne : (sInsert (k, v) es).take ((lm + 1) / 2) ≠ [] := by
              intro hcn
              rw [hcn] at htlen
              simp at htlen
              omega
            obtain ⟨y, hy⟩ := List.exists_mem_of_ne_nil _ hTne
            refine ⟨fun u hu => ?_, fun u hu => ?_⟩
            · exact lt_of_le_of_lt ((hsbd y (List.mem_of_mem_take hy)).1 u hu)
                (hcross y hy d0 hd0mem)
            · exact (hsbd d0 (List.mem_of_mem_drop hd0mem)).2 u hu
          · simp only [toListN]
            rw [← hd, List.take_append_drop]
    · have hlt : es.length < lm := by
        simp [isFull] at hfull
        omega
      by_cases hmem : k ∈ keysOf es
      · have hstep : insertNode lm im (.leaf es) k v = .dup := by
          rw [insertNode, if_neg hfull, (leafInsert_spec es (k, v) hsort).1 hmem]
        rw [hstep]
        exact ⟨fun _ => hmem, fun n2 h => InsRes.noConfusion h,
          fun l sep r h => InsRes.noConfusion h⟩
      · have hstep : insertNode lm im (.leaf es) k v = .done (.leaf (sInsert (k, v) es)) := by
          rw [insertNode, if_neg hfull, (leafInsert_spec es (k, v) hsort).2 hmem]
        rw [hstep]
        refine ⟨fun h => InsRes.noConfusion h, fun n2 h => ?_,
          fun l sep r h => InsRes.noConfusion h⟩
        injection h with h1
        subst h1
        refine ⟨hmem, ?_, by simp only [toListN]⟩
        rw [WFNode]
        refine ⟨sInsert_ne_nil (k, v) es, ?_, sInsert_sorted (k, v) es hsort hmem, ?_⟩
        · rw [sInsert_length]
          omega
        · intro x hx
          rcases (sInsert_mem (k, v) x es).mp hx with hx | hx
          · rw [hx]; exact hk
          · exact hbd x hx
  | .inner es => by
    obtain ⟨hlen1, hlenle, hwfc⟩ := hwf
    have hne : es ≠ [] := by
      intro hcn
      rw [hcn] at hlen1
      simp at hlen1
    obtain ⟨hdup, hdone, hsplitc⟩ := insertInner_spec lm im lo hi es k v hlm him hne hwfc hk
    simp only [toListN]
    cases hres : insertInner lm im es (childIdx es k) k v with
    | dup =>
      have hstep : insertNode lm im (.inner es) k v = .dup := by
        rw [insertNode, hres]
      rw [hstep]
      exact ⟨fun _ => hdup hres, fun n2 h => InsRes.noConfusion h,
        fun l sep r h => InsRes.noConfusion h⟩
    | done es2 =>
      obtain ⟨hkn, hkeys, hwf2, hcont⟩ := hdone es2 hres
      have hlen2 : es2.length = es.length := by
        have := congrArg List.length hkeys
        simpa using this
      have hstep : insertNode lm im (.inner es) k v = .done (.inner es2) := by
        rw [insertNode, hres]
      rw [hstep]
      refine ⟨fun h => InsRes.noConfusion h, fun n2 h => ?_,
        fun l sep r h => InsRes.noConfusion h⟩
      injection h with h1
      subst h1
      refine ⟨hkn, ?_, by simp only [toListN]; exact hcont⟩
      rw [WFNode]
      exact ⟨by omega, by omega, hwf2⟩
    | splitChild es2 sep0 r0 =>
      obtain ⟨hkn, hkeys, hsepB, pre, c, post, hes2, hpre, hc, hpost, hwfg, hcontg⟩ :=
        hsplitc es2 sep0 r0 hres
      have hlen2 : es2.length = es.length := by
        have := congrArg List.length hkeys
        simpa using this
      have hstep : insertNode lm im (.inner es) k v =
          (if isFull im es2.length = true then
            InsRes.split (.inner ((innerInsertVec es2 (sep0, r0)).take (internalMin im)))
              (((innerInsertVec es2 (sep0, r0)).getD (internalMin im) junkC).1)
              (.inner ((innerInsertVec es2 (sep0, r0)).drop (internalMin im)))
          else .done (.inner (innerInsert es2 (sep0, r0)))) := by
        rw [insertNode, hres]
        rfl
      have harr : innerInsertVec es2 (sep0, r0) = pre ++ c :: (sep0, r0) :: post := by
        rw [hes2]
        exact innerInsertVec_middle pre c post (sep0, r0) hpre hc hpost
      have hlenpc : pre.length + post.length + 1 = es2.length := by
        have := congrArg List.length hes2
        simp [List.length_append] at this
        omega
      by_cases hfull2 : isFull im es2.length = true
      · have heq : es2.length = im := by
          have h2 : im ≤ es2.length := by simpa [isFull] using hfull2
          omega
        have hglen : (pre ++ c :: (sep0, r0) :: post).length = im + 1 := by
          simp only [List.length_append, List.length_cons]
          omega
        have hm1 : 1 ≤ internalMin im := by
          rw [internalMin]
          omega
        have hmlt : internalMin im < (pre ++ c :: (sep0, r0) :: post).length := by
          rw [hglen, internalMin]
          omega
        obtain ⟨hwL, hwR, hsepP⟩ :=
          wfChildren_split lm im lo hi (pre ++ c :: (sep0, r0) :: post) (internalMin im)
            hwfg hm1 hmlt
        rw [hstep, if_pos hfull2, harr]
        refine ⟨fun h => InsRes.noConfusion h, fun n2 h => InsRes.noConfusion h,
          fun l sep r h => ?_⟩
        injection h with h1 h2 h3
        subst h1
        subst h2
        subst h3
        refine ⟨hkn, ?_, ?_, hsepP, ?_⟩
        · rw [WFNode]
          refine ⟨?_, ?_, hwL⟩
          · rw [List.length_take, hglen, internalMin]
            omega
          · rw [List.length_take, hglen, internalMin]
            omega
        · rw [WFNode]
          refine ⟨?_, ?_, hwR⟩
          · rw [List.length_drop, hglen, internalMin]
            omega
          · rw [List.length_drop, hglen, internalMin]
            omega
        · simp only [toListN]
          rw [← toListC_append, List.take_append_drop]
          exact hcontg
      · have hlt2 : es2.length < im := by
          simp [isFull] at hfull2
          omega
        have hinner : innerInsert es2 (sep0, r0) = pre ++ c :: (sep0, r0) :: post := by
          rw [hes2]
          exact innerInsert_middle pre c post (sep0, r0) hpre hc hpost
        have hstep2 : insertNode lm im (.inner es) k v =
            .done (.inner (pre ++ c :: (sep0, r0) :: post)) := by
          rw [hstep, if_neg hfull2, hinner]
        rw [hstep2]
        refine ⟨fun h => InsRes.noConfusion h, fun n2 h => ?_,
          fun l sep r h => InsRes.noConfusion h⟩
        injection h with h1
        subst h1
        refine ⟨hkn, ?_, by simp only [toListN]; exact hcontg⟩
        rw [WFNode]
        refine ⟨?_, ?_, hwfg⟩
        · simp only [List.length_append, List.length_cons]
          omega
        · simp only [List.length_append, List.length_cons]
          omega

/-- Descent below a child list at the routed index `Find(key)`. -/
theorem insertInner_spec (lm im : Nat) (lo hi : Option Key) (es : List (Key × BPTNode))
    (k : Key) (v : Val) (hlm : 1 ≤ lm) (him : 2 ≤ im) (hne : es ≠ [])
    (hwf : WFChildren lm im lo hi es) (hk : inB lo hi k) :
    (insertInner lm im es (childIdx es k) k v = .dup → k ∈ keysOf (toListC es)) ∧
      (∀ es2, insertInner lm im es (childIdx es k) k v = .done es2 →
        k ∉ keysOf (toListC es) ∧ es2.map Prod.fst = es.map Prod.fst ∧
          WFChildren lm im lo hi es2 ∧ toListC es2 = sInsert (k, v) (toListC es)) ∧
      (∀ es2 sep r, insertInner lm im es (childIdx es k) k v = .splitChild es2 sep r →
        k ∉ keysOf (toListC es) ∧ es2.map Prod.fst = es.map Prod.fst ∧ inBs lo hi sep ∧
          ∃ pre c post, es2 = pre ++ c :: post ∧
            (∀ x ∈ pre.drop 1, x.1 < sep) ∧ (pre ≠ [] → c.1 < sep) ∧
            (∀ x ∈ post, sep < x.1) ∧
            WFChildren lm im lo hi (pre ++ c :: (sep, r) :: post) ∧
            toListC (pre ++ c :: (sep, r) :: post) = sInsert (k, v) (toListC es)) :=
  match es with
  | [] => absurd rfl hne
  | [e] => by
    rw [WFChildren] at hwf
    obtain ⟨hdup, hdone, hsplit⟩ := insertNode_spec lm im lo hi e.2 k v hlm him hwf hk
    rw [childIdx_single e k]
    cases hres : insertNode lm im e.2 k v with
    | dup =>
      have hstep : insertInner lm im [e] 0 k v = .dup := by
        rw [insertInner, hres]
      rw [hstep]
      refine ⟨fun _ => ?_, fun es2 h => InnerRes.noConfusion h,
        fun es2 sep r h => InnerRes.noConfusion h⟩
      rw [toListC_single]
      exact hdup hres
    | done c2 =>
      obtain ⟨hkn, hwf2, hcont⟩ := hdone c2 hres
      have hstep : insertInner lm im [e] 0 k v = .done [(e.1, c2)] := by
        rw [insertInner, hres]
      rw [hstep]
      refine ⟨fun h => InnerRes.noConfusion h, fun es2 h => ?_,
        fun es2 sep r h => InnerRes.noConfusion h⟩
      injection h with h1
      subst h1
      refine ⟨?_, by simp, ?_, ?_⟩
      · rw [toListC_single]
        exact hkn
      · rw [WFChildren]
        exact hwf2
      · rw [toListC_single, toListC_single]
        exact hcont
    | split l sep r =>
      obtain ⟨hkn, hwl, hwr, hsepb, hcont⟩ := hsplit l sep r hres
      have hstep : insertInner lm im [e] 0 k v = .splitChild [(e.1, l)] sep r := by
        rw [insertInner, hres]
      rw [hstep]
      refine ⟨fun h => InnerRes.noConfusion h, fun es2 h => InnerRes.noConfusion h,
        fun es2 sep2 r2 h => ?_⟩
      injection h with h1 h2 h3
      subst h1
      subst h2
      subst h3
      refine ⟨?_, by simp, hsepb, [], (e.1, l), [], rfl, by simp,
        fun hcpre => absurd rfl hcpre, by simp, ?_, ?_⟩
      · rw [toListC_single]
        exact hkn
      · rw [List.nil_append, WFChildren, WFChildren]
        exact ⟨hwl, hwr⟩
      · rw [List.nil_append, toListC_pair, toListC_single]
        exact hcont
  | e :: e2 :: rest => by
    rw [WFChildren] at hwf
    obtain ⟨he, hrest⟩ := hwf
    have hTL : toListC (e :: e2 :: rest) = toListN e.2 ++ toListC (e2 :: rest) := by
      rw [toListC]
    by_cases hklt : k < e2.1
    · have hidx := childIdx_lt e e2 rest k hklt
      have hk' : inB lo (some e2.1) k := ⟨hk.1, fun u hu => (Option.some.inj hu) ▸ hklt⟩
      obtain ⟨hdup, hdone, hsplit⟩ :=
        insertNode_spec lm im lo (some e2.1) e.2 k v hlm him he hk'
      obtain ⟨hn2, hs2, hb2⟩ := toListC_props lm im (some e2.1) hi (e2 :: rest) (by simp) hrest
      have hgt : ∀ x ∈ toListC (e2 :: rest), k < x.1 :=
        fun x hx => lt_of_lt_of_le hklt ((hb2 x hx).1 e2.1 rfl)
      have hknotin2 : k ∉ keysOf (toListC (e2 :: rest)) := by
        intro hcm
        obtain ⟨x, hx, hxk⟩ := List.mem_map.mp hcm
        exact absurd (hxk ▸ hgt x hx) (lt_irrefl k)
      have hpush : sInsert (k, v) (toListC (e :: e2 :: rest)) =
          sInsert (k, v) (toListN e.2) ++ toListC (e2 :: rest) := by
        rw [hTL, sInsert_append_left (k, v) _ _ hgt]
      rw [hidx]
      cases hres : insertNode lm im e.2 k v with
      | dup =>
        have hstep : insertInner lm im (e :: e2 :: rest) 0 k v = .dup := by
          rw [insertInner, hres]
        rw [hstep]
        refine ⟨fun _ => ?_, fun es2 h => InnerRes.noConfusion h,
          fun es2 sep r h => InnerRes.noConfusion h⟩
        rw [hTL, keysOf_append]
        exact List.mem_append_left _ (hdup hres)
      | done c2 =>
        obtain ⟨hkn, hwf2, hcont⟩ := hdone c2 hres
        have hstep : insertInner lm im (e :: e2 :: rest) 0 k v =
            .done ((e.1, c2) :: e2 :: rest) := by
          rw [insertInner, hres]
        rw [hstep]
        refine ⟨fun h => InnerRes.noConfusion h, fun es2 h => ?_,
          fun es2 sep r h => InnerRes.noConfusion h⟩
        injection h with h1
        subst h1
        refine ⟨?_, by simp, ?_, ?_⟩
        · rw [hTL, keysOf_append]
          intro hcm
          rcases List.mem_append.mp hcm with hcm | hcm
          · exact hkn hcm
          · exact hknotin2 hcm
        · rw [WFChildren]
          exact ⟨hwf2, hrest⟩
        · rw [show toListC ((e.1, c2) :: e2 :: rest) = toListN c2 ++ toListC (e2 :: rest) from by
            rw [toListC], hcont, hpush]
      | split l sep r =>
        obtain ⟨hkn, hwl, hwr, hsepb, hcont⟩ := hsplit l sep r hres
        have hsepLt : sep < e2.1 := hsepb.2 e2.1 rfl
        have hstep : insertInner lm im (e :: e2 :: rest) 0 k v =
            .splitChild ((e.1, l) :: e2 :: rest) sep r := by
          rw [insertInner, hres]
        rw [hstep]
        refine ⟨fun h => InnerRes.noConfusion h, fun es2 h => InnerRes.noConfusion h,
          fun es2 sep2 r2 h => ?_⟩
        injection h with h1 h2 h3
        subst h1
        subst h2
        subst h3
        have hknot : k ∉ keysOf (toListC (e :: e2 :: rest)) := by
          rw [hTL, keysOf_append]
          intro hcm
          rcases List.mem_append.mp hcm with hcm | hcm
          · exact hkn hcm
          · exact hknotin2 hcm
        refine ⟨hknot, by simp, ?_, [], (e.1, l), e2 :: rest, rfl, by simp,
          fun hcpre => absurd rfl hcpre, ?_, ?_, ?_⟩
        · obtain ⟨y, hy⟩ := List.exists_mem_of_ne_nil _ hn2
          refine ⟨hsepb.1, fun u hu => ?_⟩
          exact lt_trans (lt_of_lt_of_le hsepLt ((hb2 y hy).1 e2.1 rfl)) ((hb2 y hy).2 u hu)
        · intro x hx
          rcases List.mem_cons.mp hx with hx | hx
          · rw [hx]
            exact hsepLt
          · exact lt_trans hsepLt (wfChildren_tail_gt lm im hi e2.1 (e2 :: rest) hrest x
              (show x ∈ (e2 :: rest).drop 1 by rw [List.drop_one, List.tail_cons]; exact hx))
        · rw [List.nil_append, WFChildren, WFChildren]
          exact ⟨hwl, hwr, hrest⟩
        · rw [List.nil_append,
            show toListC ((e.1, l) :: (sep, r) :: e2 :: rest) =
              toListN l ++ (toListN r ++ toListC (e2 :: rest)) from by rw [toListC, toListC],
            ← List.append_assoc, hcont, hpush]
    · have hidx := childIdx_ge e e2 rest k hklt
      have hk' : inB (some e2.1) hi k :=
        ⟨fun u hu => (Option.some.inj hu) ▸ not_lt.mp hklt, hk.2⟩
      obtain ⟨hdup, hdone, hsplit⟩ :=
        insertInner_spec lm im (some e2.1) hi (e2 :: rest) k v hlm him (by simp) hrest hk'
      obtain ⟨hn1, _, hb1⟩ := toListN_props lm im lo (some e2.1) e.2 he
      have hlt1 : ∀ x ∈ toListN e.2, x.1 < k :=
        fun x hx => lt_of_lt_of_le ((hb1 x hx).2 e2.1 rfl) (not_lt.mp hklt)
      have hknotin1 : k ∉ keysOf (toListN e.2) := by
        intro hcm
        obtain ⟨x, hx, hxk⟩ := List.mem_map.mp hcm
        exact absurd (hxk ▸ hlt1 x hx) (lt_irrefl k)
      have hpush : sInsert (k, v) (toListC (e :: e2 :: rest)) =
          toListN e.2 ++ sInsert (k, v) (toListC (e2 :: rest)) := by
        rw [hTL, sInsert_append_right (k, v) _ _ (fun x hx => key_not_lt_of_lt (hlt1 x hx))]
      rw [hidx]
      cases hres : insertInner lm im (e2 :: rest) (childIdx (e2 :: rest) k) k v with
      | dup =>
        have hstep : insertInner lm im (e :: e2 :: rest) (childIdx (e2 :: rest) k + 1) k v =
            .dup := by
          rw [insertInner, hres]
        rw [hstep]
        refine ⟨fun _ => ?_, fun es2 h => InnerRes.noConfusion h,
          fun es2 sep r h => InnerRes.noConfusion h⟩
        rw [hTL, keysOf_append]
        exact List.mem_append_right _ (hdup hres)
      | done rest2 =>
        obtain ⟨hkn, hkeys, hwf2, hcont⟩ := hdone rest2 hres
        have hhead : rest2.map Prod.fst = e2.1 :: rest.map Prod.fst := by
          rw [hkeys, List.map_cons]
        obtain ⟨f, tail, hr2, hf1, _⟩ := map_fst_cons_destruct hhead
        have hstep : insertInner lm im (e :: e2 :: rest) (childIdx (e2 :: rest) k + 1) k v =
            .done (e :: rest2) := by
          rw [insertInner, hres]
        rw [hstep]
        refine ⟨fun h => InnerRes.noConfusion h, fun es2 h => ?_,
          fun es2 sep r h => InnerRes.noConfusion h⟩
        injection h with h1
        subst h1
        refine ⟨?_, by rw [List.map_cons, List.map_cons, hkeys], ?_, ?_⟩
        · rw [hTL, keysOf_append]
          intro hcm
          rcases List.mem_append.mp hcm with hcm | hcm
          · exact hknotin1 hcm
          · exact hkn hcm
        · rw [hr2, WFChildren, hf1]
          exact ⟨he, hr2 ▸ hwf2⟩
        · rw [show toListC (e :: rest2) = toListN e.2 ++ toListC rest2 from by rw [toListC],
            hcont, hpush]
      | splitChild rest2 sep r =>
        obtain ⟨hkn, hkeys, hsepb, pre1, c, post1, hes2p, hpre1, hc1, hpost1, hwfg1, hcontg1⟩ :=
          hsplit rest2 sep r hres
        have he21 : e2.1 < sep := hsepb.1 e2.1 rfl
        have hhead : rest2.map Prod.fst = e2.1 :: rest.map Prod.fst := by
          rw [hkeys, List.map_cons]
        have hstep : insertInner lm im (e :: e2 :: rest) (childIdx (e2 :: rest) k + 1) k v =
            .splitChild (e :: rest2) sep r := by
          rw [insertInner, hres]
        rw [hstep]
        refine ⟨fun h => InnerRes.noConfusion h, fun es2 h => InnerRes.noConfusion h,
          fun es2 sep2 r2 h => ?_⟩
        injection h with h1 h2 h3
        subst h1
        subst h2
        subst h3
        have hknot : k ∉ keysOf (toListC (e :: e2 :: rest)) := by
          rw [hTL, keysOf_append]
          intro hcm
          rcases List.mem_append.mp hcm with hcm | hcm
          · exact hknotin1 hcm
          · exact hkn hcm
        have hsepHi : inBs lo hi sep := by
          obtain ⟨z, hz⟩ := List.exists_mem_of_ne_nil _ hn1
          refine ⟨fun u hu => ?_, hsepb.2⟩
          exact lt_trans (lt_of_le_of_lt ((hb1 z hz).1 u hu) ((hb1 z hz).2 e2.1 rfl)) he21
        rcases pre1 with _ | ⟨p0, pt⟩
        · rw [List.nil_append] at hes2p hwfg1 hcontg1
          have hce2 : c.1 = e2.1 := by
            rw [hes2p, List.map_cons, List.cons.injEq] at hhead
            exact hhead.1
          refine ⟨hknot, by rw [List.map_cons, List.map_cons, hkeys], hsepHi,
            [e], c, post1, by rw [hes2p]; rfl, by simp,
            fun _ => by rw [hce2]; exact he21, hpost1, ?_, ?_⟩
          · rw [show ([e] ++ c :: (sep, r) :: post1) = e :: c :: (sep, r) :: post1 from rfl,
              WFChildren, hce2]
            exact ⟨he, hwfg1⟩
          · rw [show toListC ([e] ++ c :: (sep, r) :: post1) =
                toListN e.2 ++ toListC (c :: (sep, r) :: post1) from by
                rw [show ([e] ++ c :: (sep, r) :: post1) =
                  e :: c :: (sep, r) :: post1 from rfl, toListC],
              hcontg1, hpush]
        · rw [List.cons_append] at hes2p hwfg1 hcontg1
          have hp01 : p0.1 = e2.1 := by
            rw [hes2p, List.map_cons, List.cons.injEq] at hhead
            exact hhead.1
          refine ⟨hknot, by rw [List.map_cons, List.map_cons, hkeys], hsepHi,
            e :: p0 :: pt, c, post1, by rw [hes2p]; rfl, ?_,
            fun _ => hc1 (List.cons_ne_nil p0 pt), hpost1, ?_, ?_⟩
          · intro x hx
            rw [List.drop_one, List.tail_cons] at hx
            rcases List.mem_cons.mp hx with hx | hx
            · rw [hx, hp01]
              exact he21
            · exact hpre1 x (show x ∈ (p0 :: pt).drop 1 by
                rw [List.drop_one, List.tail_cons]; exact hx)
          · rw [show ((e :: p0 :: pt) ++ c :: (sep, r) :: post1) =
                e :: p0 :: (pt ++ c :: (sep, r) :: post1) from rfl, WFChildren, hp01]
            exact ⟨he, hwfg1⟩
          · rw [show toListC ((e :: p0 :: pt) ++ c :: (sep, r) :: post1) =
                toListN e.2 ++ toListC (p0 :: (pt ++ c :: (sep, r) :: post1)) from by
                rw [show ((e :: p0 :: pt) ++ c :: (sep, r) :: post1) =
                  e :: p0 :: (pt ++ c :: (sep, r) :: post1) from rfl, toListC],
              hcontg1, hpush]

end

/-! ### Tree-level insertion -/

theorem wfTree_root (t : BPTree) (rt : BPTNode) (hwf : WFTree t) (hroot : t.root = some rt) :
    WFNode t.leafMax t.internalMax none none rt := by
  rw [WFTree, hroot] at hwf
  exact hwf

theorem wfTree_mk (t : BPTree) (rt : BPTNode)
    (h : WFNode t.leafMax t.internalMax none none rt) :
    WFTree { t with root := some rt } := h

theorem treeContents_mk (t : BPTree) (rt : BPTNode) :
    treeContents { t with root := some rt } = toListN rt := rfl

/-- A fresh-key insert returns `true`, preserves well-formedness and the
configured sizes, and the contents become the sorted insertion of the pair. -/
theorem bptInsert_fresh (t : BPTree) (k : Key) (v : Val)
    (hlm : 1 ≤ t.leafMax) (him : 2 ≤ t.internalMax) (hwf : WFTree t)
    (hfresh : k ∉ keysOf (treeContents t)) :
    (bptInsert t k v).1 = true ∧ WFTree (bptInsert t k v).2 ∧
      (bptInsert t k v).2.leafMax = t.leafMax ∧
      (bptInsert t k v).2.internalMax = t.internalMax ∧
      treeContents (bptInsert t k v).2 = sInsert (k, v) (treeContents t) := by
  cases hroot : t.root with
  | none =>
    have hstep : bptInsert t k v = (true, { t with root := some (.leaf [(k, v)]) }) := by
      rw [bptInsert, hroot]
      rfl
    have hc0 : treeContents t = [] := by rw [treeContents, hroot]
    rw [hstep, hc0]
    refine ⟨rfl, ?_, rfl, rfl, rfl⟩
    refine wfTree_mk t (.leaf [(k, v)]) ?_
    rw [WFNode]
    refine ⟨List.cons_ne_nil _ _, ?_, ?_, ?_⟩
    · simp only [List.length_cons, List.length_nil]
      omega
    · simp [chainSorted]
    · intro kv _
      exact inB_none_none kv.1
  | some rt =>
    have hwfn := wfTree_root t rt hwf hroot
    have hct : treeContents t = toListN rt := by rw [treeContents, hroot]
    have hstep : bptInsert t k v =
        (match insertNode t.leafMax t.internalMax rt k v with
        | .dup => (false, t)
        | .done rt2 => (true, { t with root := some rt2 })
        | .split l sep r =>
          (true, { t with root := some (.inner [(sep, l), (sep, r)]) })) := by
      rw [bptInsert, hroot]
    obtain ⟨hdup, hdone, hsplit⟩ :=
      insertNode_spec t.leafMax t.internalMax none none rt k v hlm him hwfn (inB_none_none k)
    rw [hct] at hfresh
    cases hres : insertNode t.leafMax t.internalMax rt k v with
    | dup => exact absurd (hdup hres) hfresh
    | done rt2 =>
      obtain ⟨_, hwf2, hcont⟩ := hdone rt2 hres
      rw [hstep, hres]
      exact ⟨rfl, wfTree_mk t rt2 hwf2, rfl, rfl, by rw [treeContents_mk, hct]; exact hcont⟩
    | split l sep r =>
      obtain ⟨_, hwl, hwr, _, hcont⟩ := hsplit l sep r hres
      rw [hstep, hres]
      refine ⟨rfl, ?_, rfl, rfl, ?_⟩
      · refine wfTree_mk t (.inner [(sep, l), (sep, r)]) ?_
        rw [WFNode]
        refine ⟨?_, ?_, ?_⟩
        · simp only [List.length_cons, List.length_nil]
          omega
        · simp only [List.length_cons, List.length_nil]
          omega
        · rw [WFChildren, WFChildren]
          exact ⟨hwl, hwr⟩
      · rw [treeContents_mk, hct,
          show toListN (BPTNode.inner [(sep, l), (sep, r)]) = toListN l ++ toListN r from by
            rw [toListN, toListC_pair]]
        exact hcont

/-- Folding fresh-key inserts keeps the tree well-formed and accumulates the
sorted insertions. -/
theorem bptInsertAll_go (ps : List KV) (t : BPTree)
    (hlm : 1 ≤ t.leafMax) (him : 2 ≤ t.internalMax) (hwf : WFTree t)
    (hfresh : ∀ p ∈ ps, p.1 ∉ keysOf (treeContents t))
    (hnd : (ps.map Prod.fst).Nodup) :
    WFTree (bptInsertAll t ps) ∧
      (bptInsertAll t ps).leafMax = t.leafMax ∧
      (bptInsertAll t ps).internalMax = t.internalMax ∧
      treeContents (bptInsertAll t ps) =
        ps.foldl (fun acc kv => sInsert kv acc) (treeContents t) := by
  induction ps generalizing t with
  | nil => exact ⟨hwf, rfl, rfl, rfl⟩
  | cons p ps ih =>
    obtain ⟨_, hwf2, hlm2, him2, hcont2⟩ :=
      bptInsert_fresh t p.1 p.2 hlm him hwf (hfresh p (List.mem_cons_self p ps))
    rw [List.map_cons, List.nodup_cons] at hnd
    have hfresh2 : ∀ q ∈ ps, q.1 ∉ keysOf (treeContents (bptInsert t p.1 p.2).2) := by
      intro q hq
      rw [hcont2]
      intro hcm
      rcases (sInsert_key_mem (p.1, p.2) (treeContents t) q.1).mp hcm with hcm | hcm
      · exact hnd.1 (hcm ▸ List.mem_map_of_mem Prod.fst hq)
      · exact hfresh q (List.mem_cons_of_mem p hq) hcm
    have hall : bptInsertAll t (p :: ps) = bptInsertAll (bptInsert t p.1 p.2).2 ps := by
      rw [bptInsertAll, bptInsertAll, List.foldl_cons]
    obtain ⟨ih1, ih2, ih3, ih4⟩ := ih (bptInsert t p.1 p.2).2 (by omega) (by omega)
      hwf2 hfresh2 hnd.2
    rw [hall]
    refine ⟨ih1, by rw [ih2, hlm2], by rw [ih3, him2], ?_⟩
    rw [ih4, hcont2, List.foldl_cons]

/-! ### The sorted-insertion fold -/

theorem sortKey_go_perm (ps : List KV) (acc : List KV) :
    (ps.foldl (fun a kv => sInsert kv a) acc).Perm (acc ++ ps) := by
  induction ps generalizing acc with
  | nil => simp
  | cons p ps ih =>
    rw [List.foldl_cons]
    refine (ih (sInsert p acc)).trans ?_
    refine ((sInsert_perm p acc).append_right ps).trans ?_
    exact List.perm_middle.symm

theorem sortKey_perm (ps : List KV) : (sortKey ps).Perm ps := by
  have h := sortKey_go_perm ps []
  rw [List.nil_append] at h
  exact h

theorem sortKey_go_sorted (ps : List KV) (acc : List KV) (hs : chainSorted acc)
    (hnd : (ps.map Prod.fst).Nodup) (hdisj : ∀ p ∈ ps, p.1 ∉ keysOf acc) :
    chainSorted (ps.foldl (fun a kv => sInsert kv a) acc) := by
  induction ps generalizing acc with
  | nil => exact hs
  | cons p ps ih =>
    rw [List.map_cons, List.nodup_cons] at hnd
    rw [List.foldl_cons]
    refine ih (sInsert p acc) (sInsert_sorted p acc hs (hdisj p (List.mem_cons_self p ps)))
      hnd.2 ?_
    intro q hq hcm
    rcases (sInsert_key_mem p acc q.1).mp hcm with hcm | hcm
    · exact hnd.1 (hcm ▸ List.mem_map_of_mem Prod.fst hq)
    · exact hdisj q (List.mem_cons_of_mem p hq) hcm

theorem sortKey_sorted (ps : List KV) (hnd : (ps.map Prod.fst).Nodup) :
    chainSorted (sortKey ps) :=
  sortKey_go_sorted ps [] (by simp [chainSorted]) hnd (by simp [keysOf])

/-! ### The leaf chain -/

mutual

theorem leafLists_flatten (t : BPTNode) : (leafLists t).flatten = toListN t :=
  match t with
  | .leaf es => by
    rw [leafLists, toListN]
    simp
  | .inner es => by
    rw [leafLists, toListN]
    exact leafListsC_flatten es

theorem leafListsC_flatten (es : List (Key × BPTNode)) :
    (leafListsC es).flatten = toListC es :=
  match es with
  | [] => by rw [leafListsC, toListC]; rfl
  | e :: rest => by
    rw [leafListsC, toListC, List.flatten_append, leafLists_flatten e.2,
      leafListsC_flatten rest]

end

mutual

theorem leafLists_ne (lm im : Nat) (lo hi : Option Key) (t : BPTNode)
    (h : WFNode lm im lo hi t) :
    leafLists t ≠ [] ∧ ∀ l ∈ leafLists t, l ≠ [] :=
  match t with
  | .leaf es => by
    obtain ⟨hne, _, _, _⟩ := h
    rw [leafLists]
    refine ⟨List.cons_ne_nil es [], fun l hl => ?_⟩
    rcases List.mem_cons.mp hl with hl | hl
    · rw [hl]; exact hne
    · simp at hl
  | .inner es => by
    obtain ⟨hlen1, _, hwfc⟩ := h
    have hne : es ≠ [] := by
      intro hcn
      rw [hcn] at hlen1
      simp at hlen1
    rw [leafLists]
    exact leafListsC_ne lm im lo hi es hne hwfc

theorem leafListsC_ne (lm im : Nat) (lo hi : Option Key) (es : List (Key × BPTNode))
    (hne : es ≠ []) (h : WFChildren lm im lo hi es) :
    leafListsC es ≠ [] ∧ ∀ l ∈ leafListsC es, l ≠ [] :=
  match es with
  | [] => absurd rfl hne
  | [e] => by
    rw [WFChildren] at h
    obtain ⟨h1, h2⟩ := leafLists_ne lm im lo hi e.2 h
    rw [leafListsC, leafListsC, List.append_nil]
    exact ⟨h1, h2⟩
  | e :: e2 :: rest => by
    rw [WFChildren] at h
    obtain ⟨he, hrest⟩ := h
    obtain ⟨h1, h2⟩ := leafLists_ne lm im lo (some e2.1) e.2 he
    obtain ⟨h3, h4⟩ := leafListsC_ne lm im (some e2.1) hi (e2 :: rest) (by simp) hrest
    rw [leafListsC]
    constructor
    · intro hcn
      exact h1 (List.append_eq_nil.mp hcn).1
    · intro l hl
      rcases List.mem_append.mp hl with hl | hl
      · exact h2 l hl
      · exact h4 l hl

end

/-! ### The iterator loop -/

/-- The `Begin()`-to-`IsEnd()` loop yields the concatenation of the leaf chain
whenever every leaf on the chain is nonempty. -/
theorem iterRun_spec (rest : List (List KV)) (c : List KV) (idx : Nat)
    (hidx : idx ≤ c.length) (hrest : ∀ l ∈ rest, l ≠ [])
    (hend : idx = c.length → rest = []) :
    iterRun (c :: rest) idx = some (c.drop idx ++ rest.flatten) := by
  rw [iterRun]
  by_cases hstop : rest.isEmpty = true ∧ idx = c.length
  · rw [if_pos hstop]
    obtain ⟨hre, hie⟩ := hstop
    have hre2 : rest = [] := List.isEmpty_iff.mp hre
    subst hie
    rw [hre2, List.drop_length]
    rfl
  · rw [if_neg hstop]
    have hlt : idx < c.length := by
      rcases Nat.lt_or_ge idx c.length with h | h
      · exact h
      · exfalso
        have he : idx = c.length := le_antisymm hidx h
        exact hstop ⟨by rw [hend he]; rfl, he⟩
    split
    · rename_i heq
      rw [List.get?_eq_get hlt] at heq
      exact Option.noConfusion heq
    · rename_i kv heq
      rw [List.get?_eq_get hlt] at heq
      have hkv : c.get ⟨idx, hlt⟩ = kv := Option.some.inj heq
      have hdropc : c.drop idx = c.get ⟨idx, hlt⟩ :: c.drop (idx + 1) :=
        (@List.cons_get_drop_succ _ c ⟨idx, hlt⟩).symm
      by_cases hjump : ((idx : Int) = (c.length : Int) - 1) ∧ ¬ rest.isEmpty = true
      · rw [if_pos hjump]
        obtain ⟨hj1, hj2⟩ := hjump
        have hidx1 : idx + 1 = c.length := by omega
        cases hr : rest with
        | nil => exact absurd (show rest.isEmpty = true by rw [hr]; rfl) hj2
        | cons r0 rest1 =>
          rw [hr] at hrest
          have hrec := iterRun_spec rest1 r0 0 (Nat.zero_le _)
            (fun l hl => hrest l (List.mem_cons_of_mem r0 hl))
            (fun h0 => absurd (List.eq_nil_of_length_eq_zero h0.symm)
              (hrest r0 (List.mem_cons_self r0 rest1)))
          have hdone1 : c.drop idx = [kv] := by
            rw [hdropc, hidx1, List.drop_length, hkv]
          rw [hrec, hdone1, List.flatten_cons, List.drop_zero]
          rfl
      · rw [if_neg hjump]
        have hend2 : idx + 1 = c.length → rest = [] := by
          intro hlen1
          by_contra hrne
          exact hjump ⟨by omega, fun hie => hrne (List.isEmpty_iff.mp hie)⟩
        have hrec := iterRun_spec rest c (idx + 1) (by omega) hrest hend2
        rw [hrec, hdropc, hkv]
        rfl
termination_by (rest.length, c.length - idx)
decreasing_by
  · rw [hr]
    simp only [List.length_cons]
    omega
  · omega

/-- `Begin()`-to-`IsEnd()` iteration of a well-formed nonempty tree returns
exactly the tree contents. -/
theorem iterateTree_spec (t : BPTree) (rt : BPTNode) (hroot : t.root = some rt)
    (hwf : WFTree t) :
    iterateTree t = some (treeContents t) := by
  have hwfn := wfTree_root t rt hwf hroot
  have hct : treeContents t = toListN rt := by rw [treeContents, hroot]
  obtain ⟨hln, hlmem⟩ := leafLists_ne t.leafMax t.internalMax none none rt hwfn
  have hit : iterateTree t = iterRun (leafLists rt) 0 := by
    rw [iterateTree, hroot]
  cases hll : leafLists rt with
  | nil => exact absurd hll hln
  | cons L0 Ls =>
    have hL0 : L0 ≠ [] := hlmem L0 (by rw [hll]; exact List.mem_cons_self _ _)
    have hrun := iterRun_spec Ls L0 0 (Nat.zero_le _)
      (fun l hl => hlmem l (by rw [hll]; exact List.mem_cons_of_mem L0 hl))
      (fun h0 => absurd (List.eq_nil_of_length_eq_zero h0.symm) hL0)
    rw [hit, hll, hrun, hct, ← leafLists_flatten rt, hll, List.drop_zero, List.flatten_cons]

/-! ### C1 and C5 -/

/-- C1: for every nonempty list of pairs with pairwise-distinct keys, inserting
them all into an initially empty B+tree and iterating from `Begin()` until
`IsEnd()` yields exactly the inserted pairs in ascending key order — the
insertion sort `sortKey ps`, which is a permutation of the input and strictly
key-sorted.  (On the empty key set the claim fails: see the counterexample —
`Begin()` on a tree with `root_page_id_ == INVALID_PAGE_ID` fetches the invalid
page, modelled as `none`.) -/
theorem C1_insert_all_then_iterate_sorted (lm im : Nat) (ps : List KV)
    (hlm : 1 ≤ lm) (him : 2 ≤ im) (hne : ps ≠ [])
    (hnd : (ps.map Prod.fst).Nodup) :
    iterateTree (bptInsertAll (bptEmpty lm im) ps) = some (sortKey ps) ∧
      (sortKey ps).Perm ps ∧ chainSorted (sortKey ps) := by
  obtain ⟨hwfT, hlmT, himT, hcontT⟩ := bptInsertAll_go ps (bptEmpty lm im)
    hlm him trivial (fun p _ => (by simp [keysOf] : p.1 ∉ keysOf ([] : List KV))) hnd
  have hcont2 : treeContents (bptInsertAll (bptEmpty lm im) ps) = sortKey ps := by
    rw [hcontT]
    rfl
  have hperm := sortKey_perm ps
  refine ⟨?_, hperm, sortKey_sorted ps hnd⟩
  cases hroot : (bptInsertAll (bptEmpty lm im) ps).root with
  | none =>
    exfalso
    have hc0 : treeContents (bptInsertAll (bptEmpty lm im) ps) = [] := by
      rw [treeContents, hroot]
    rw [hc0] at hcont2
    have hp2 := hperm
    rw [← hcont2] at hp2
    exact hne (List.Perm.eq_nil hp2.symm)
  | some rt =>
    rw [iterateTree_spec _ rt hroot hwfT, hcont2]

/-- The key-order round trip applied to the two-pair input `(2, 20), (1, 10)`
with leaf size 2 and internal size 3. -/
theorem C1_insert_all_then_iterate_sorted_witness :
    1 ≤ 2 ∧ 2 ≤ 3 ∧ ([((2 : Key), (20 : Val)), (1, 10)] : List KV) ≠ [] ∧
      (([((2 : Key), (20 : Val)), (1, 10)] : List KV).map Prod.fst).Nodup ∧
      (iterateTree (bptInsertAll (bptEmpty 2 3) [(2, 20), (1, 10)]) =
          some (sortKey [(2, 20), (1, 10)]) ∧
        (sortKey [((2 : Key), (20 : Val)), (1, 10)]).Perm [(2, 20), (1, 10)] ∧
        chainSorted (sortKey [((2 : Key), (20 : Val)), (1, 10)])) :=
  ⟨by decide, by decide, by decide, by decide,
    C1_insert_all_then_iterate_sorted 2 3 [(2, 20), (1, 10)]
      (by decide) (by decide) (by decide) (by decide)⟩

/-- On the empty key set, inserting nothing leaves `root_page_id_` invalid and
`Begin()` fetches `INVALID_PAGE_ID` (`b_plus_tree.cpp:359-363`): iteration is
undefined — `none` — not the empty run `sorted(∅)` the claim asks for. -/
theorem C1_empty_key_set_counterexample :
    iterateTree (bptInsertAll (bptEmpty 2 3) []) = none := rfl

/-- C5: inserting a key that is already present in a well-formed tree returns
`false` and leaves the tree value — every page, size, link and the root —
unchanged. -/
theorem C5_duplicate_insert_rejected (t : BPTree) (k : Key) (v : Val)
    (hlm : 1 ≤ t.leafMax) (him : 2 ≤ t.internalMax) (hwf : WFTree t)
    (hmem : k ∈ keysOf (treeContents t)) :
    bptInsert t k v = (false, t) := by
  cases hroot : t.root with
  | none =>
    exfalso
    have hc0 : treeContents t = [] := by rw [treeContents, hroot]
    rw [hc0] at hmem
    simp [keysOf] at hmem
  | some rt =>
    have hwfn := wfTree_root t rt hwf hroot
    have hmem2 : k ∈ keysOf (toListN rt) := by
      have hct : treeContents t = toListN rt := by rw [treeContents, hroot]
      rw [hct] at hmem
      exact hmem
    obtain ⟨hdup, hdone, hsplit⟩ :=
      insertNode_spec t.leafMax t.internalMax none none rt k v hlm him hwfn (inB_none_none k)
    have hstep : bptInsert t k v =
        (match insertNode t.leafMax t.internalMax rt k v with
        | .dup => (false, t)
        | .done rt2 => (true, { t with root := some rt2 })
        | .split l sep r =>
          (true, { t with root := some (.inner [(sep, l), (sep, r)]) })) := by
      rw [bptInsert, hroot]
    cases hres : insertNode t.leafMax t.internalMax rt k v with
    | dup => rw [hstep, hres]
    | done rt2 => exact absurd hmem2 (hdone rt2 hres).1
    | split l sep r => exact absurd hmem2 (hsplit l sep r hres).1

/-- Duplicate rejection on the concrete one-leaf tree holding key 1. -/
theorem C5_duplicate_insert_rejected_witness :
    1 ≤ (⟨2, 3, some (.leaf [((1 : Key), (10 : Val))])⟩ : BPTree).leafMax ∧
      2 ≤ (⟨2, 3, some (.leaf [((1 : Key), (10 : Val))])⟩ : BPTree).internalMax ∧
      WFTree (⟨2, 3, some (.leaf [((1 : Key), (10 : Val))])⟩ : BPTree) ∧
      (1 : Key) ∈ keysOf
        (treeContents (⟨2, 3, some (.leaf [((1 : Key), (10 : Val))])⟩ : BPTree)) ∧
      bptInsert (⟨2, 3, some (.leaf [((1 : Key), (10 : Val))])⟩ : BPTree) 1 99 =
        (false, (⟨2, 3, some (.leaf [((1 : Key), (10 : Val))])⟩ : BPTree)) :=
  ⟨by decide, by decide,
    (⟨List.cons_ne_nil _ _, by decide, by simp [chainSorted],
      fun kv _ => inB_none_none kv.1⟩ :
        WFNode 2 3 none none (.leaf [((1 : Key), (10 : Val))])),
    by decide,
    C5_duplicate_insert_rejected _ 1 99 (by decide) (by decide)
      (⟨List.cons_ne_nil _ _, by decide, by simp [chainSorted],
        fun kv _ => inB_none_none kv.1⟩ :
          WFNode 2 3 none none (.leaf [((1 : Key), (10 : Val))]))
      (by decide)⟩

end MyBustub
